import Mathlib

/-!
# Verification of the intcode toolchain

A shallow embedding of the core of the `intcode` repository (assembler,
virtual machine, disassembler) together with proofs about the behaviour
claimed in its specification.

Conventions used throughout:

* Rust `i64` values are modelled as `Int`; the truncated division and
  remainder of Rust (`/`, `%` on `i64`) are `Int.tdiv` and `Int.tmod`.
* Rust `usize` values are modelled as `Nat`.
* Fallible operations return `Option`/`Except`-like sums; a Rust `panic!`
  (for example an `unwrap` failure) is modelled as a distinguished
  `panicked`/`none` result, kept separate from the `Error` values that the
  code returns through its `Result` channel.
* `Vec<i64>` is a `List Int`; pushes are appends at the right end.
-/

namespace Run

/-! ## The virtual machine, from `src/core/src/run.rs` -/

/-- The VM runtime error enum (`run.rs`, `enum Error`).  The `Io` variant is
external I/O plumbing and is not part of the execution core. -/
inductive VMError where
  | unknownMode (mode : Int)
  | unknownOpcode (opcode : Int)
deriving DecidableEq, Repr

/-- The state of the machine (`struct Computer`): memory, instruction
pointer, relative base and the queued inputs (front of the list pops
first, as for `VecDeque::pop_front`). -/
structure Computer where
  mem : List Int
  ptr : Nat
  relative_base : Int
  input : List Int
deriving DecidableEq, Repr

/-- Result of a fallible VM computation: success, a returned `Error`, or a
Rust panic (`unwrap` on a failed conversion). -/
inductive Res (α : Type) where
  | ok (a : α)
  | err (e : VMError)
  | panicked
deriving DecidableEq, Repr

/-- `fn cast(num: i64) -> usize { usize::try_from(num).unwrap() }`:
negative values do not convert and the `unwrap` panics. -/
def cast (num : Int) : Res Nat :=
  if 0 ≤ num then .ok num.toNat else .panicked

/-- `Computer::mem_get`: reads beyond the end of memory return 0. -/
def mem_get (c : Computer) (addr : Nat) : Int :=
  c.mem.getD addr 0

/-- `Computer::mem_get_mut` combined with the assignment through the
returned reference: `mem.resize(max(len, addr + 1), 0)` and then
`mem[addr] = v`. -/
def mem_set (mem : List Int) (addr : Nat) (v : Int) : List Int :=
  (mem ++ List.replicate (addr + 1 - mem.length) 0).set addr v

/-- Case split on a `Res`, propagating errors and panics. -/
def runRes {α β : Type} (r : Res α) (f : α → β) (onErr : VMError → β)
    (onPanic : β) : β :=
  match r with
  | .ok a => f a
  | .err e => onErr e
  | .panicked => onPanic

/-- `Computer::param_ptr`: resolve the address of the `i`-th parameter
(1-indexed) of the instruction at `ptr`.  The mode digit of parameter `i`
is `opcode / 10^(1+i) % 10` (Rust truncated `/` and `%`). -/
def param_ptr (c : Computer) (i : Nat) : Res Nat :=
  let opcode := mem_get c c.ptr
  let ptr := c.ptr + i
  match (opcode.tdiv (10 ^ (1 + i))).tmod 10 with
  | 0 => cast (mem_get c ptr)
  | 1 => .ok ptr
  | 2 => cast (c.relative_base + mem_get c ptr)
  | mode => .err (.unknownMode mode)

/-- `Computer::param`: the value of the `i`-th parameter (a read). -/
def param (c : Computer) (i : Nat) : Res Int :=
  match param_ptr c i with
  | .ok p => .ok (mem_get c p)
  | .err e => .err e
  | .panicked => .panicked

/-- The result of executing one instruction: the body of the `loop` in
`Computer::next`.  `cont` means the loop continues with the new state;
the other constructors are the `break`s (and panics). -/
inductive StepRes where
  | cont (c : Computer)
  | yielded (v : Int) (c : Computer)
  | waiting (c : Computer)
  | complete (c : Computer)
  | fail (e : VMError)
  | panicked
deriving DecidableEq, Repr

/-- One iteration of the `loop` in `Computer::next` (`run.rs` lines
98-152).  For the write instructions the right-hand side of the Rust
assignment is evaluated before the place expression, so the order is
`param(1)`, `param(2)`, `param_ptr(3)`. -/
def step (c : Computer) : StepRes :=
  match (mem_get c c.ptr).tmod 100 with
  | 1 =>
    runRes (param c 1) (fun v1 =>
      runRes (param c 2) (fun v2 =>
        runRes (param_ptr c 3) (fun a =>
          .cont { c with mem := mem_set c.mem a (v1 + v2), ptr := c.ptr + 4 })
          .fail .panicked)
        .fail .panicked)
      .fail .panicked
  | 2 =>
    runRes (param c 1) (fun v1 =>
      runRes (param c 2) (fun v2 =>
        runRes (param_ptr c 3) (fun a =>
          .cont { c with mem := mem_set c.mem a (v1 * v2), ptr := c.ptr + 4 })
          .fail .panicked)
        .fail .panicked)
      .fail .panicked
  | 3 =>
    match c.input with
    | [] => .waiting c
    | v :: rest =>
      runRes (param_ptr c 1) (fun a =>
        .cont { c with mem := mem_set c.mem a v, ptr := c.ptr + 2,
                       input := rest })
        .fail .panicked
  | 4 =>
    runRes (param c 1) (fun v =>
      .yielded v { c with ptr := c.ptr + 2 })
      .fail .panicked
  | 5 =>
    runRes (param c 1) (fun v1 =>
      -- `if p1 != 0 { jump } else { fall through }`, branches flipped so the
      -- condition is an equality
      if v1 = 0 then .cont { c with ptr := c.ptr + 3 }
      else
        runRes (param c 2) (fun v2 =>
          runRes (cast v2) (fun a => .cont { c with ptr := a })
            .fail .panicked)
          .fail .panicked)
      .fail .panicked
  | 6 =>
    runRes (param c 1) (fun v1 =>
      if v1 = 0 then
        runRes (param c 2) (fun v2 =>
          runRes (cast v2) (fun a => .cont { c with ptr := a })
            .fail .panicked)
          .fail .panicked
      else .cont { c with ptr := c.ptr + 3 })
      .fail .panicked
  | 7 =>
    runRes (param c 1) (fun v1 =>
      runRes (param c 2) (fun v2 =>
        runRes (param_ptr c 3) (fun a =>
          .cont { c with mem := mem_set c.mem a (if v1 < v2 then 1 else 0),
                         ptr := c.ptr + 4 })
          .fail .panicked)
        .fail .panicked)
      .fail .panicked
  | 8 =>
    runRes (param c 1) (fun v1 =>
      runRes (param c 2) (fun v2 =>
        runRes (param_ptr c 3) (fun a =>
          .cont { c with mem := mem_set c.mem a (if v1 = v2 then 1 else 0),
                         ptr := c.ptr + 4 })
          .fail .panicked)
        .fail .panicked)
      .fail .panicked
  | 9 =>
    runRes (param c 1) (fun v1 =>
      .cont { c with relative_base := c.relative_base + v1, ptr := c.ptr + 2 })
      .fail .panicked
  | 99 => .complete c
  | opcode => .fail (.unknownOpcode opcode)

/-- Terminal result of `Computer::next`: the loop has broken out. -/
inductive NextRes where
  | yielded (v : Int) (c : Computer)
  | waiting (c : Computer)
  | complete (c : Computer)
  | fail (e : VMError)
  | panicked
deriving DecidableEq, Repr

/-- `Computer::next` with explicit fuel for the non-terminating `loop`:
iterate `step` until it suspends, completes, errors or panics. -/
def nextN : Nat → Computer → Option NextRes
  | 0, _ => none
  | n + 1, c =>
    match step c with
    | .cont c' => nextN n c'
    | .yielded v c' => some (.yielded v c')
    | .waiting c' => some (.waiting c')
    | .complete c' => some (.complete c')
    | .fail e => some (.fail e)
    | .panicked => some .panicked

/-- The mode digit of the `i`-th parameter of the instruction word at the
current instruction pointer. -/
def modeDigit (c : Computer) (i : Nat) : Int :=
  ((mem_get c c.ptr).tdiv (10 ^ (1 + i))).tmod 10

end Run

namespace Lex

/-! ## The lexer, from `src/core/src/assemble/lex.rs`

The input is modelled as a `List Char`; positions are byte offsets into the
UTF-8 encoding of the source, advanced by `Char.utf8Size` per character
exactly as Rust's `str::char_indices` yields byte indices. -/

/-- The token kinds (`enum Token`). -/
inductive Token where
  | colon
  | comma
  | hash
  | plus
  | minus
  | newline
  | whitespace
  | ident
  | number
  | string
  | comment
  | eof
deriving DecidableEq, Repr

/-- A half-open byte span `m..n`. -/
def Span : Type := Nat × Nat
deriving instance DecidableEq, Repr for Span

/-- The `CharIndices` iterator state: the remaining characters and the byte
offset of the next character (`peek_index`). -/
structure Iter where
  input : List Char
  offset : Nat
deriving DecidableEq, Repr

/-- `char::is_ascii_whitespace`: space, tab, LF, FF or CR. -/
def is_ascii_whitespace (c : Char) : Bool :=
  c = ' ' || c = '\t' || c = '\n' || c = Char.ofNat 12 || c = '\r'

/-- `fn is_identifier_start` (`lex.rs`). -/
def is_identifier_start (c : Char) : Bool :=
  ('a' ≤ c && c ≤ 'z') || ('A' ≤ c && c ≤ 'Z') || c = '_'

/-- `fn is_identifier` (`lex.rs`). -/
def is_identifier (c : Char) : Bool :=
  ('0' ≤ c && c ≤ '9') || ('A' ≤ c && c ≤ 'Z') || ('a' ≤ c && c ≤ 'z') ||
    c = '_'

/-- The `while self.lex_if(predicate) {}` loop of `Tokens::lex_token`:
consume characters while the predicate holds. -/
def lexRunAux (pred : Char → Bool) : List Char → Nat → Iter
  | [], off => ⟨[], off⟩
  | c :: rest, off =>
    if pred c then lexRunAux pred rest (off + c.utf8Size)
    else ⟨c :: rest, off⟩

/-- `lexRunAux` packaged on an iterator state. -/
def lexRun (pred : Char → Bool) (it : Iter) : Iter :=
  lexRunAux pred it.input it.offset

/-- `Tokens::lex_string` (the loop after the opening quote has been
consumed): scan to an unescaped closing quote; LF or end of input before
it is an `undelimited string` error.  `i` is the byte index of the opening
quote, `curr` the previously read character (initially `'"'`). -/
def lexStringAux (i : Nat) : Char → List Char → Nat →
    Except (String × Span) ((Span × Token) × Iter)
  | _, [], off => .error ("undelimited string", (i, off))
  | curr, c :: rest, off =>
    if c = '\n' then .error ("undelimited string", (i, off))
    else if c = '"' && curr ≠ '\\' then
      .ok (((i, off + 1), .string), ⟨rest, off + 1⟩)
    else lexStringAux i c rest (off + c.utf8Size)

/-- `lexStringAux` packaged on an iterator state. -/
def lexString (i : Nat) (curr : Char) (it : Iter) :
    Except (String × Span) ((Span × Token) × Iter) :=
  lexStringAux i curr it.input it.offset

/-- `Tokens::next` (`lex.rs` lines 167-204): produce the next token. -/
def next (it : Iter) : Except (String × Span) ((Span × Token) × Iter) :=
  match it.input with
  | [] => .ok (((it.offset, it.offset), .eof), it)
  | c :: rest =>
    let i := it.offset
    let it1 : Iter := ⟨rest, i + c.utf8Size⟩
    -- single character to token mappings
    if c = ':' then .ok (((i, i + 1), .colon), it1)
    else if c = ',' then .ok (((i, i + 1), .comma), it1)
    else if c = '#' then .ok (((i, i + 1), .hash), it1)
    else if c = '+' then .ok (((i, i + 1), .plus), it1)
    else if c = '-' then .ok (((i, i + 1), .minus), it1)
    else if c = '\n' then .ok (((i, i + 1), .newline), it1)
    -- multi-character tokens with a distinct starting character
    else if c = ';' then
      let it2 := lexRun (fun ch => ch != '\n') it1
      .ok (((i, it2.offset), .comment), it2)
    else if c = '"' then lexString i '"' it1
    -- multi-character tokens that use many different characters
    else if is_ascii_whitespace c then
      let it2 := lexRun is_ascii_whitespace it1
      .ok (((i, it2.offset), .whitespace), it2)
    else if c.isDigit then
      let it2 := lexRun is_identifier it1
      .ok (((i, it2.offset), .number), it2)
    else if is_identifier_start c then
      let it2 := lexRun is_identifier it1
      .ok (((i, it2.offset), .ident), it2)
    -- any other character is considered invalid
    else .error ("unexpected character", (i, it1.offset))

/-- Collect all tokens until (and including) `Eof`, with fuel for the
outer loop (every non-`Eof` token consumes at least one character, so
`length + 1` fuel always suffices). -/
def tokenize : Nat → Iter → Except (String × Span) (List (Span × Token))
  | 0, _ => .ok []
  | n + 1, it =>
    match next it with
    | .error e => .error e
    | .ok ((sp, .eof), _) => .ok [(sp, .eof)]
    | .ok ((sp, tk), it') =>
      match tokenize n it' with
      | .error e => .error e
      | .ok rest => .ok ((sp, tk) :: rest)

/-- Tokenize a whole source text. -/
def lex (s : List Char) : Except (String × Span) (List (Span × Token)) :=
  tokenize (s.length + 1) ⟨s, 0⟩

end Lex

namespace Asm

/-! ## The assembler backend, from `src/core/src/assemble.rs`

The AST types follow `src/core/assemble/src/ast.rs` (the sibling layout of
the same crate; the backend file `assemble.rs` imports them as
`self::ast`).  Spans only feed diagnostic messages and are dropped; string
literals are carried as their UTF-8 bytes, which is what
`string.into_owned().into_bytes()` iterates over. -/

/-- `enum Mode`. -/
inductive Mode where
  | positional
  | immediate
  | relative
deriving DecidableEq, Repr

/-- `impl From<Mode> for i64`. -/
def Mode.toInt : Mode → Int
  | .positional => 0
  | .immediate => 1
  | .relative => 2

/-- `enum Label`: `_`, `ip`, or a fixed name. -/
inductive Label where
  | underscore
  | instructionPointer
  | fixed (name : String)
deriving DecidableEq, Repr

/-- `enum Param`: a parameter of a regular instruction. -/
inductive Param where
  | label (m : Mode) (l : Label) (offset : Int)
  | number (m : Mode) (value : Int)
deriving DecidableEq, Repr

/-- `enum RawParam`: a parameter of a `DB` data statement.  A string is
its list of UTF-8 bytes. -/
inductive RawParam where
  | label (l : Label) (offset : Int)
  | number (value : Int)
  | string (bytes : List Nat)
deriving DecidableEq, Repr

/-- `enum Instr`. -/
inductive Instr where
  | add (x y z : Param)
  | multiply (x y z : Param)
  | lessThan (x y z : Param)
  | equal (x y z : Param)
  | jumpNonZero (x y : Param)
  | jumpZero (x y : Param)
  | input (p : Param)
  | output (p : Param)
  | adjustRelativeBase (p : Param)
  | halt
  | data (ps : List RawParam)
deriving DecidableEq, Repr

/-- `Instr::opcode` (`ast.rs`).  The source panics on `Data`; the assembler
never queries the opcode of a `Data` statement, so the value returned for
it here (0) is never used. -/
def Instr.opcode : Instr → Int
  | .add .. => 1
  | .multiply .. => 2
  | .input _ => 3
  | .output _ => 4
  | .jumpNonZero .. => 5
  | .jumpZero .. => 6
  | .lessThan .. => 7
  | .equal .. => 8
  | .adjustRelativeBase _ => 9
  | .halt => 99
  | .data _ => 0

/-- The parameters of a regular instruction in positional order (empty for
`Halt` and `Data`).  The backend's match arms group the 3-, 2- and
1-parameter instructions and handle their parameters identically in
sequence; this function names that sequence. -/
def Instr.paramList : Instr → List Param
  | .add x y z => [x, y, z]
  | .multiply x y z => [x, y, z]
  | .lessThan x y z => [x, y, z]
  | .equal x y z => [x, y, z]
  | .jumpNonZero x y => [x, y]
  | .jumpZero x y => [x, y]
  | .input p => [p]
  | .output p => [p]
  | .adjustRelativeBase p => [p]
  | .halt => []
  | .data _ => []

/-- `struct Stmt`: an optional label and an instruction. -/
structure Stmt where
  label : Option Label
  instr : Instr
deriving DecidableEq, Repr

/-- `struct State` in `assemble.rs`: the definition sites and reference
sites recorded for one label name (spans dropped). -/
structure LState where
  defs : List Nat
  refs : List Nat
deriving DecidableEq, Repr

/-- The label table: `IndexMap<&str, State>` as an insertion-ordered
association list with unique keys. -/
def LabelMap : Type := List (String × LState)
deriving instance DecidableEq, Repr for LabelMap

/-- `labels.entry(name).or_default()` followed by a mutation `f` of the
entry: update the existing entry or append a fresh default one. -/
def entryUpdate : LabelMap → String → (LState → LState) → LabelMap
  | [], name, f => [(name, f ⟨[], []⟩)]
  | (n, st) :: rest, name, f =>
    if n = name then (n, f st) :: rest
    else (n, st) :: entryUpdate rest name f

/-- `labels.entry(label).or_default().defs.push((address, span))`. -/
def pushDef (m : LabelMap) (name : String) (address : Nat) : LabelMap :=
  entryUpdate m name fun st => { st with defs := st.defs ++ [address] }

/-- `labels.entry(label).or_default().refs.push((output.len(), span))`. -/
def pushRef (m : LabelMap) (name : String) (pos : Nat) : LabelMap :=
  entryUpdate m name fun st => { st with refs := st.refs ++ [pos] }

/-- `fn insert_label`: record a statement label definition, rejecting the
reserved names; returns the updated table and an optional error message. -/
def insert_label (labels : LabelMap) (label : Option Label) (address : Nat) :
    LabelMap × Option String :=
  match label with
  | some .underscore =>
    (labels, some "label is reserved to indicate a runtime value")
  | some .instructionPointer =>
    (labels, some "label is reserved to refer to the instruction pointer")
  | some (.fixed "rb") =>
    (labels, some "label is reserved to refer to the relative base")
  | some (.fixed name) => (pushDef labels name address, none)
  | none => (labels, none)

/-- The value word pushed for one parameter by the `param` closure of
`assemble` (`assemble.rs` lines 67-83); `ip` is the address just after the
current instruction as computed by the backend. -/
def paramValue (ip : Int) : Param → Int
  | .number _ v => v
  | .label _ .underscore off => off
  | .label _ .instructionPointer off => ip + off
  | .label _ (.fixed _) off => off

/-- The mode accumulated for one parameter by the `param` closure. -/
def paramMode : Param → Int
  | .number m _ => m.toInt
  | .label m _ _ => m.toInt

/-- The `param` closure of `assemble`: push the value word, record a
reference site for fixed labels, and return the mode. -/
def paramEmit (output : List Int) (labels : LabelMap) (p : Param)
    (ip : Int) : Int × List Int × LabelMap :=
  match p with
  | .number m v => (m.toInt, output ++ [v], labels)
  | .label m .underscore off => (m.toInt, output ++ [off], labels)
  | .label m .instructionPointer off => (m.toInt, output ++ [ip + off], labels)
  | .label m (.fixed name) off =>
    (m.toInt, output ++ [off], pushRef labels name output.length)

/-- Apply `paramEmit` to each parameter in order, collecting the modes. -/
def emitParams : List Param → Int → List Int × LabelMap →
    (List Int × LabelMap) × List Int
  | [], _, ol => (ol, [])
  | p :: rest, ip, ol =>
    let t := paramEmit ol.1 ol.2 p ip
    let res := emitParams rest ip (t.2.1, t.2.2)
    (res.1, t.1 :: res.2)

/-- `x_mode * 100 + y_mode * 1_000 + z_mode * 10_000` generalised to the
list of accumulated modes: each successive parameter's mode is scaled by a
further factor of 10 starting at 100. -/
def modeSum : List Int → Int
  | [] => 0
  | m :: rest => m * 100 + 10 * modeSum rest

/-- `output[i] += d` (the opcode-word patch and the pass-2 reference
patch). -/
def patchAdd (l : List Int) (i : Nat) (d : Int) : List Int :=
  l.set i (l.getD i 0 + d)

/-- One data parameter of a `DB` statement (`assemble.rs` lines 113-141):
push the word(s), recording reference sites for fixed labels.  A string
pushes one word per UTF-8 byte. -/
def emitData (ip : Int) (ol : List Int × LabelMap) (d : RawParam) :
    List Int × LabelMap :=
  match d with
  | .label .underscore off => (ol.1 ++ [off], ol.2)
  | .label .instructionPointer off => (ol.1 ++ [ip + off], ol.2)
  | .label (.fixed name) off =>
    (ol.1 ++ [off], pushRef ol.2 name ol.1.length)
  | .number v => (ol.1 ++ [v], ol.2)
  | .string bytes => (ol.1 ++ bytes.map Int.ofNat, ol.2)

/-- State threaded through pass 1 of `assemble`. -/
structure AsmSt where
  output : List Int
  labels : LabelMap
  errors : List String
deriving DecidableEq, Repr

/-- Emission of one regular instruction (the shared shape of the
3-, 2- and 1-parameter match arms and `Halt`): remember `i = output.len()`,
compute `ip = i + 1 + arity`, push the opcode word, emit the parameters,
then patch the opcode word with the accumulated modes. -/
def emitInstr (st : AsmSt) (opcodeVal : Int) (ps : List Param) : AsmSt :=
  let i := st.output.length
  let ip : Int := (i : Int) + 1 + ps.length
  let t := emitParams ps ip (st.output ++ [opcodeVal], st.labels)
  { output := patchAdd t.1.1 i (modeSum t.2), labels := t.1.2,
    errors := st.errors }

/-- Process one statement of pass 1 (`assemble.rs` lines 62-144). -/
def procStmt (st : AsmSt) (s : Stmt) : AsmSt :=
  let t := insert_label st.labels s.label st.output.length
  let errors1 := st.errors ++ t.2.toList
  match s.instr with
  | .data ps =>
    -- NOTE: the source computes `ip` as `output.len() + data.len()`,
    -- counting one word per data *parameter*, even though a string
    -- parameter emits one word per byte.
    let ip : Int := (st.output.length : Int) + ps.length
    let res := ps.foldl (emitData ip) (st.output, t.1)
    ⟨res.1, res.2, errors1⟩
  | .halt => ⟨st.output ++ [Instr.opcode .halt], t.1, errors1⟩
  | i => emitInstr ⟨st.output, t.1, errors1⟩ i.opcode i.paramList

/-- Pass 1: walk the statements in order. -/
def pass1 (stmts : List Stmt) (st : AsmSt) : AsmSt :=
  stmts.foldl procStmt st

/-- Pass 2, one label-table entry (`assemble.rs` lines 146-173): resolve
the references of one name, or report `undefined label`, the unused-label
warning, or redefinition errors. -/
def procEntry (acc : List Int × List String × List String)
    (e : String × LState) : List Int × List String × List String :=
  let (output, errors, warnings) := acc
  match e.2.defs with
  | [] => (output, errors ++ e.2.refs.map (fun _ => "undefined label"),
      warnings)
  | [address] =>
    if e.2.refs.isEmpty && !(e.1.startsWith "_") then
      (output, errors, warnings ++ ["label is never used"])
    else
      (e.2.refs.foldl (fun o r => patchAdd o r (address : Int)) output,
        errors, warnings)
  | _ :: rest =>
    (output,
      errors ++ ["first definition of label"] ++
        rest.map (fun _ => "label redefined here"),
      warnings)

/-- `fn assemble`: pass 1, pass 2, then either the intcode with warnings
or the error list. -/
def assemble (stmts : List Stmt) :
    Except (List String) (List Int × List String) :=
  let st := pass1 stmts ⟨[], [], []⟩
  let res := st.labels.foldl procEntry (st.output, st.errors, [])
  if res.2.1.isEmpty then .ok (res.1, res.2.2) else .error res.2.1

/-- `RawParam::len` (`ast.rs`): the number of words a data parameter
emits. -/
def RawParam.len : RawParam → Nat
  | .label _ _ => 1
  | .number _ => 1
  | .string bytes => bytes.length

/-- The number of words a statement emits. -/
def Stmt.size (s : Stmt) : Nat :=
  match s.instr with
  | .data ps => (ps.map RawParam.len).sum
  | .halt => 1
  | i => 1 + i.paramList.length

/-- Total number of words emitted by a list of statements. -/
def totalSize (stmts : List Stmt) : Nat :=
  (stmts.map Stmt.size).sum

/-- The address of the `j`-th statement: the sum of the sizes of the
statements before it. -/
def startAddr (stmts : List Stmt) (j : Nat) : Nat :=
  totalSize (stmts.take j)

/-- The specified encoding of an instruction word:
`opcode + 100·m1 + 1000·m2 + 10000·m3`, with absent parameters
contributing zero.  `none` for `Data` statements, which have no opcode
word. -/
def instrWord (s : Stmt) : Option Int :=
  match s.instr with
  | .data _ => none
  | i => some (i.opcode + modeSum (i.paramList.map paramMode))

/-- Whether a statement is a `DB` data statement. -/
def Stmt.isData (s : Stmt) : Bool :=
  match s.instr with
  | .data _ => true
  | _ => false

/-- The value words one data parameter emits (matching `emitData`). -/
def dataWords (ip : Int) : RawParam → List Int
  | .label .underscore off => [off]
  | .label .instructionPointer off => [ip + off]
  | .label (.fixed _) off => [off]
  | .number v => [v]
  | .string bytes => bytes.map Int.ofNat

/-- The value words a whole `DB` parameter list emits. -/
def wordsOfData (ip : Int) : List RawParam → List Int
  | [] => []
  | d :: rest => dataWords ip d ++ wordsOfData ip rest

/-- All reference sites recorded in a label table. -/
def refsOf : LabelMap → List Nat
  | [] => []
  | e :: rest => e.2.refs ++ refsOf rest

/-- The start addresses of the non-data statements, counting from `base`:
the positions of the opcode words. -/
def nonDataStarts : List Stmt → Nat → List Nat
  | [], _ => []
  | s :: rest, base =>
    (if s.isData then [] else [base]) ++ nonDataStarts rest (base + s.size)

end Asm

namespace Dis

/-! ## The disassembler, from `src/intcode/disassemble/src/`

Types from `ast.rs` and `program.rs`; the static marker from
`statically.rs`; the labeler from `labels.rs`.  `labels.rs` references a
`LabelType` enum and a `Slot.label_type` field that are absent from the
shipped `program.rs` (version skew between the files); they are modelled
from their uses in `labels.rs`: a `LabelType` is `Data` or `Instr` and
`label_type` is an optional per-slot annotation written by
`set_label_type`. -/

/-- `enum Label` (`ast.rs`). -/
inductive Label where
  | underscore
  | instructionPointer
  | fixed (name : String)
deriving DecidableEq, Repr

/-- `enum Mode` (`ast.rs`). -/
inductive Mode where
  | positional
  | immediate
  | relative
deriving DecidableEq, Repr

/-- `enum Param` (`ast.rs`). -/
inductive Param where
  | label (m : Mode) (l : Label) (offset : Int)
  | number (m : Mode) (value : Int)
deriving DecidableEq, Repr

/-- `enum Opcode` (`program.rs`). -/
inductive Opcode where
  | add
  | multiply
  | lessThan
  | equal
  | jumpNonZero
  | jumpZero
  | input
  | output
  | adjustRelativeBase
  | halt
  | mutable
deriving DecidableEq, Repr

/-- `enum Mark` (`program.rs`). -/
inductive Mark where
  | opcode (o : Opcode)
  | param (p : Param)
  | string
  | data
deriving DecidableEq, Repr

/-- `enum Purpose` (`program.rs`). -/
inductive Purpose where
  | read
  | write
  | jump
deriving DecidableEq, Repr

/-- `struct Mention` (`program.rs`). -/
structure Mention where
  purpose : Purpose
  referrer : Nat
deriving DecidableEq, Repr

/-- Modelled from the spec and the uses in `labels.rs` (the declaration is
not in the shipped `program.rs`): the kind of thing a label target is. -/
inductive LabelType where
  | data
  | instr
deriving DecidableEq, Repr

/-- `struct Slot` (`program.rs`), with the `label_type` field used by
`labels.rs`.  `mentions` is a `HashSet` in the source; it is modelled as a
duplicate-free insertion list (only membership is ever queried). -/
structure Slot where
  raw : Int
  mark : Option Mark := none
  mentions : List Mention := []
  label : Option Label := none
  label_type : Option LabelType := none
deriving DecidableEq, Repr

/-- `struct Program` (`program.rs`). -/
structure Program where
  slots : List Slot
deriving DecidableEq, Repr

/-- `Mode::from_value` (`program.rs`). -/
def Mode.from_value (v : Int) : Option Mode :=
  match v with
  | 0 => some .positional
  | 1 => some .immediate
  | 2 => some .relative
  | _ => none

/-- `Opcode::from_value` (`program.rs`). -/
def Opcode.from_value (v : Int) : Option Opcode :=
  match v with
  | 1 => some .add
  | 2 => some .multiply
  | 3 => some .input
  | 4 => some .output
  | 5 => some .jumpNonZero
  | 6 => some .jumpZero
  | 7 => some .lessThan
  | 8 => some .equal
  | 9 => some .adjustRelativeBase
  | 99 => some .halt
  | _ => none

/-- `Opcode::params` (`program.rs`); panics (`none`) on `Mutable`. -/
def Opcode.params : Opcode → Option Nat
  | .add => some 3
  | .multiply => some 3
  | .input => some 1
  | .output => some 1
  | .jumpNonZero => some 2
  | .jumpZero => some 2
  | .lessThan => some 3
  | .equal => some 3
  | .adjustRelativeBase => some 1
  | .halt => some 0
  | .mutable => none

/-- `Opcode::value` (`program.rs`); panics (`none`) on `Mutable`. -/
def Opcode.value : Opcode → Option Int
  | .add => some 1
  | .multiply => some 2
  | .input => some 3
  | .output => some 4
  | .jumpNonZero => some 5
  | .jumpZero => some 6
  | .lessThan => some 7
  | .equal => some 8
  | .adjustRelativeBase => some 9
  | .halt => some 99
  | .mutable => none

/-- Apply `f` to the element at index `i` (in-place slot mutation). -/
def listModify {α : Type} (f : α → α) : Nat → List α → List α
  | _, [] => []
  | 0, a :: rest => f a :: rest
  | i + 1, a :: rest => a :: listModify f i rest

/-- `Program::new`. -/
def Program.new (intcode : List Int) : Program :=
  ⟨intcode.map (fun raw => { raw := raw })⟩

/-- `Program::len`. -/
def Program.len (p : Program) : Nat :=
  p.slots.length

/-- `Slot::is_unmarked` on the slot at `i` (false when out of range). -/
def slotUnmarked (p : Program) (i : Nat) : Bool :=
  match p.slots[i]? with
  | some s => s.mark.isNone
  | none => false

/-- `Slot::has_rw_purpose` on the slot at `i`. -/
def slotHasRw (p : Program) (i : Nat) : Bool :=
  match p.slots[i]? with
  | some s => s.mentions.any
      (fun m => m.purpose = Purpose.read ∨ m.purpose = Purpose.write)
  | none => false

/-- `Slot::has_jump_purpose` on the slot at `i`. -/
def slotHasJump (p : Program) (i : Nat) : Bool :=
  match p.slots[i]? with
  | some s => s.mentions.any (fun m => m.purpose = Purpose.jump)
  | none => false

/-- `Program::mention`: record a mention unless the address is out of
range (set-insert semantics on the mention list). -/
def Program.mention (p : Program) (addr : Nat) (m : Mention) : Program :=
  if p.len ≤ addr then p
  else ⟨listModify (fun s =>
    if m ∈ s.mentions then s else { s with mentions := s.mentions ++ [m] })
    addr p.slots⟩

/-- `Program::mark`: mark an unmarked slot, accept an identical re-mark,
panic (`none`) on a conflicting mark or an out-of-range address. -/
def Program.mark (p : Program) (addr : Nat) (mk : Mark) : Option Program :=
  if p.len ≤ addr then none
  else
    match p.slots[addr]? with
    | none => none
    | some slot =>
      match slot.mark with
      | some m => if m = mk then some p else none
      | none =>
        some ⟨listModify (fun s => { s with mark := some mk }) addr p.slots⟩

/-- `Program::mark_opcode`: opcode marks collapse to `Mutable` on a
conflicting opcode or when the raw value's low digits do not match; a
non-opcode existing mark panics (`none`). -/
def Program.mark_opcode (p : Program) (addr : Nat) (o : Opcode) :
    Option Program :=
  if p.len ≤ addr then none
  else
    match p.slots[addr]? with
    | none => none
    | some slot =>
      match slot.mark with
      | some (.opcode o') =>
        if o' = o then some p
        else some ⟨listModify (fun s => { s with mark := some (.opcode .mutable) })
          addr p.slots⟩
      | some _ => none
      | none =>
        match o.value with
        | none => none
        | some v =>
          if slot.raw.tmod 100 ≠ v then
            some ⟨listModify (fun s => { s with mark := some (.opcode .mutable) })
              addr p.slots⟩
          else
            some ⟨listModify (fun s => { s with mark := some (.opcode o) })
              addr p.slots⟩

/-- `Program::mark_param`. -/
def Program.mark_param (p : Program) (addr : Nat) (mode : Mode) :
    Option Program :=
  if p.len ≤ addr then none
  else
    match p.slots[addr]? with
    | none => none
    | some slot => p.mark addr (.param (.number mode slot.raw))

/-! ### The static marker, `statically.rs` -/

/-- `let divs = [100, 1_000, 10_000, 100_000]`. -/
def divs : List Int := [100, 1000, 10000, 100000]

/-- The parameter-checking loop of `try_mark_instr`: for each parameter
index `i` (0-based), the slot at `addr + i + 1` must exist and be
unmarked, and the mode digit `instr / divs[i] % 10` must be valid. -/
def checkParams (p : Program) (instr : Int) (addr : Nat) :
    List Nat → Option (List (Nat × Mode))
  | [] => some []
  | i :: rest => do
    let slot ← p.slots[addr + i + 1]?
    if slot.mark.isSome then none
    else do
      let mode ← Mode.from_value ((instr.tdiv (divs.getD i 0)).tmod 10)
      let ms ← checkParams p instr addr rest
      pure ((addr + i + 1, mode) :: ms)

/-- Mark each collected parameter slot. -/
def markParamsList : Program → List (Nat × Mode) → Option Program
  | p, [] => some p
  | p, (a, m) :: rest => (p.mark_param a m).bind (markParamsList · rest)

/-- `fn try_mark_instr` (`statically.rs` lines 4-47): try to interpret the
slot at `addr` as an instruction; on success mark the opcode and its
parameters and return the instruction width.  The marking calls cannot
fail after the guards have passed. -/
def try_mark_instr (p : Program) (addr : Nat) : Option (Program × Nat) := do
  let slot ← p.slots[addr]?
  if slot.mark.isSome then none
  else do
    let instr := slot.raw
    let opcode ← Opcode.from_value (instr.tmod 100)
    let ps ← opcode.params
    if instr.tdiv (divs.getD ps 0) > 0 then none
    else do
      let modes ← checkParams p instr addr (List.range ps)
      let p1 ← p.mark_opcode addr opcode
      let p2 ← markParamsList p1 modes
      pure (p2, ps + 1)

/-- The `is_char` closure of `try_mark_string`: unmarked, unlabelled, and
the raw value is a printable-or-common-whitespace byte. -/
def isCharAt (p : Program) (a : Nat) : Bool :=
  match p.slots[a]? with
  | some s =>
    s.mark.isNone && s.label.isNone &&
      (s.raw = 9 ∨ s.raw = 10 ∨ s.raw = 13 ∨ (32 ≤ s.raw ∧ s.raw ≤ 126))
  | none => false

/-- Mark each address of a string run. -/
def markStringList : Program → List Nat → Option Program
  | p, [] => some p
  | p, a :: rest => (p.mark a .string).bind (markStringList · rest)

/-- `fn try_mark_string` (`statically.rs` lines 49-72): collect the
maximal run of character slots starting at `addr` (the `while` loop stops
at the first non-character or at the end of the image) and mark it as a
string when at least 2 slots long. -/
def try_mark_string (p : Program) (addr : Nat) : Option (Program × Nat) :=
  let addresses :=
    (List.range' addr (p.len - addr)).takeWhile (fun a => isCharAt p a)
  if addresses.length < 2 then none
  else (markStringList p addresses).map (fun p' => (p', addresses.length))

/-- One step of the first loop of `statically::mark`: strings first,
otherwise plain data for still-unmarked slots. -/
def phase1Step (acc : Option Program) (i : Nat) : Option Program :=
  acc.bind fun p =>
    match try_mark_string p i with
    | some (p', _) => some p'
    | none => if slotUnmarked p i then p.mark i .data else some p

/-- One step of the second loop of `statically::mark`: the returned width
is discarded, and a failed candidate leaves the program unchanged. -/
def phase2Step (p : Program) (i : Nat) : Program :=
  match try_mark_instr p i with
  | some (p', _) => p'
  | none => p

/-- `pub fn mark` (`statically.rs` lines 77-107): first mark string/data
at unmarked slots with Read/Write mentions, then try instruction
candidates at unmarked slots with Jump mentions.  Both index lists are
computed before their respective loops run. -/
def statically_mark (p : Program) : Option Program :=
  let idx1 := (List.range p.len).filter
    (fun i => slotUnmarked p i && slotHasRw p i)
  match idx1.foldl phase1Step (some p) with
  | none => none
  | some p1 =>
    let idx2 := (List.range p1.len).filter
      (fun i => slotUnmarked p1 i && slotHasJump p1 i)
    some (idx2.foldl phase2Step p1)

/-- The mark of the slot at `i` (`none` also when out of range). -/
def slotMark (p : Program) (i : Nat) : Option Mark :=
  (p.slots[i]?).bind (fun s => s.mark)

/-- The raw value of the slot at `i` (0 when out of range). -/
def slotRaw (p : Program) (i : Nat) : Int :=
  ((p.slots[i]?).map (fun s => s.raw)).getD 0

/-- The label of the slot at `i` (`none` also when out of range). -/
def slotLabel (p : Program) (i : Nat) : Option Label :=
  (p.slots[i]?).bind (fun s => s.label)

/-- A slot with its mark erased: equality of erased slots states that every
field except the mark is preserved. -/
def eraseMark (s : Slot) : Slot :=
  { s with mark := none }

/-- The opcode mark of the slot at `i`, if any (what `Program::instr`
scans for). -/
def slotOpcode (p : Program) (i : Nat) : Option Opcode :=
  match slotMark p i with
  | some (.opcode o) => some o
  | _ => none

/-- The label carried by a rewritten `Param(Label(..))` mark at `i`. -/
def paramLabelOf (p : Program) (i : Nat) : Option Label :=
  match slotMark p i with
  | some (.param (.label _ l _)) => some l
  | _ => none

/-- `q` differs from `p` at most in the marks of its slots. -/
def SlotsAgreeExceptMark (p q : Program) : Prop :=
  ∀ j : Nat, (q.slots[j]?).map eraseMark = (p.slots[j]?).map eraseMark

/-- `q` extends `p`: only marks changed, and only from `none` to `some`
(existing marks are untouched). -/
def MarksExtend (p q : Program) : Prop :=
  SlotsAgreeExceptMark p q ∧
    ∀ (j : Nat) (m : Mark), slotMark p j = some m → slotMark q j = some m

/-- The instruction-candidate conditions, written as the (amended)
specification states them: the slot exists and is unmarked, `raw mod 100`
is a known opcode of arity `k`, `raw / 10^(k+2)` is zero (no mode digits
beyond those of the `k` parameters), and each of the next `k` slots
exists, is unmarked, and has a valid mode digit
(`(raw / 10^(i+2)) mod 10 ∈ {0,1,2}` for the 0-based parameter `i`). -/
def candidateOK (p : Program) (addr : Nat) : Bool :=
  match p.slots[addr]? with
  | none => false
  | some slot =>
    slot.mark.isNone &&
    (match Opcode.from_value (slot.raw.tmod 100) with
     | none => false
     | some opcode =>
       match opcode.params with
       | none => false
       | some k =>
         decide (slot.raw.tdiv (10 ^ (k + 2)) ≤ 0) &&
         ((List.range k).all (fun i =>
           match p.slots[addr + i + 1]? with
           | none => false
           | some s =>
             s.mark.isNone &&
               (Mode.from_value ((slot.raw.tdiv (10 ^ (i + 2))).tmod 10)).isSome)))

/-! ### The labeler, `labels.rs` -/

/-- Concatenate a list of label lists. -/
def joinAll : List (List Label) → List Label
  | [] => []
  | x :: xs => x ++ joinAll xs

/-- `pub fn unique()` (`labels.rs` lines 53-62) as the finite list the
iterator yields: single letters from the Rust range `'a'..'z'` (exclusive
of `'z'`, so `'a'` through `'y'`) without `'l'`, then letter-digit pairs
from `'a'..='z'` (inclusive) without `'l'`. -/
def unique : List Label :=
  let singles :=
    (((List.range 25).map (fun n => Char.ofNat (97 + n))).filter
      (fun c => c ≠ 'l')).map (fun c => Label.fixed (String.mk [c]))
  let doubles :=
    joinAll ((((List.range 26).map (fun n => Char.ofNat (97 + n))).filter
      (fun c => c ≠ 'l')).map (fun c =>
        (List.range 10).map (fun d =>
          Label.fixed (String.mk [c, Char.ofNat (48 + d)]))))
  singles ++ doubles

/-- `i64 as usize`: reinterpret modulo `2^64`. -/
def rawToUsize (n : Int) : Nat :=
  (n % (2 : Int) ^ 64).toNat

/-- `Program::instr` (`labels.rs` lines 36-44): scan backwards from
`addr - 1` for the nearest slot marked as an opcode. -/
def instrAux : Program → Nat → Option (Nat × Opcode)
  | _, 0 => none
  | p, a + 1 =>
    match (p.slots[a]?).bind (fun s => s.mark) with
    | some (.opcode o) => some (a, o)
    | _ => instrAux p a

/-- `Program::instr_addr`. -/
def instr_addr (p : Program) (addr : Nat) : Option Nat :=
  (instrAux p addr).map (·.1)

/-- `fn get_labeled_addr` (`labels.rs` lines 64-95).  The target address
is `slot.raw as usize` and must satisfy `0 < addr < p.len()`; positional
parameters always qualify, immediate parameters only as the second
parameter of a preceding JNZ/JZ (the `?` inside the Rust guard makes the
whole function return `None` when there is no preceding opcode). -/
def get_labeled_addr (p : Program) (i : Nat) : Option (LabelType × Nat) :=
  match p.slots[i]? with
  | none => none
  | some slot =>
    let addrOpt : Option Nat :=
      let a := rawToUsize slot.raw
      if 0 < a ∧ a < p.len then some a else none
    match slot.mark with
    | some (.param (.number .positional _)) =>
      addrOpt.map (fun a => (LabelType.data, a))
    | some (.param (.number .immediate _)) =>
      match instrAux p i with
      | none => none
      | some (op_i, op) =>
        if (op = .jumpNonZero ∨ op = .jumpZero) ∧ i - op_i = 2 then
          addrOpt.map (fun a => (LabelType.instr, a))
        else none
    | _ => none

/-- `Program::get_or_set_label`: reuse an existing label or draw the next
fresh one (`labels.next().unwrap()` panics — `none` — when the sequence is
exhausted). -/
def get_or_set_label (p : Program) (addr : Nat) (labs : List Label) :
    Option (Label × Program × List Label) :=
  match p.slots[addr]? with
  | none => none
  | some slot =>
    match slot.label with
    | some l => some (l, p, labs)
    | none =>
      match labs with
      | [] => none
      | l :: rest =>
        some (l, ⟨listModify (fun s => { s with label := some l })
          addr p.slots⟩, rest)

/-- `Mark::label_param` via `Program::label_param`: rewrite a
`Param(Number(mode, _))` mark into `Param(Label(mode, label, offset))`;
any other mark panics (`none`, "expected number parameter"). -/
def label_param (p : Program) (i : Nat) (l : Label) (off : Int) :
    Option Program :=
  match p.slots[i]? with
  | none => none
  | some slot =>
    match slot.mark with
    | some (.param (.number mode _)) =>
      some ⟨listModify
        (fun s => { s with mark := some (.param (.label mode l off)) })
        i p.slots⟩
    | _ => none

/-- `windows(2).all(|w| w[0].0 == w[1].0)`. -/
def chainEq : List LabelType → Bool
  | [] => true
  | [_] => true
  | a :: b :: r => decide (a = b) && chainEq (b :: r)

/-- The `set_label_type` closure of `assign` (`labels.rs` lines 108-121):
when all referrer types agree and the target has no label type yet, set
it; in every other case only a warning is logged. -/
def set_label_type_fn (p : Program) (addr : Nat)
    (indexes : List (LabelType × Nat)) : Program :=
  if chainEq (indexes.map (·.1)) then
    match indexes with
    | [] => p
    | (ty, _) :: _ =>
      match (p.slots[addr]?).bind (fun s => s.label_type) with
      | some _ => p
      | none =>
        ⟨listModify (fun s => { s with label_type := some ty }) addr p.slots⟩
  else p

/-- Rewrite every referrer of a group. -/
def labelParamsList : Program → List (LabelType × Nat) → Label → Int →
    Option Program
  | p, [], _, _ => some p
  | p, (_, i) :: rest, l, off =>
    (label_param p i l off).bind (labelParamsList · rest l off)

/-- The reference pairs `(referrer, type, target)` collected by the fold
at the top of `assign`. -/
def refsPairs (p : Program) : List (Nat × LabelType × Nat) :=
  (List.range p.len).filterMap
    (fun i => (get_labeled_addr p i).map (fun ta => (i, ta.1, ta.2)))

/-- The distinct targets in ascending order (`BTreeMap` key order). -/
def targets (p : Program) : List Nat :=
  (List.range p.len).filter
    (fun a => (refsPairs p).any (fun x => decide (x.2.2 = a)))

/-- The group of one target: its referrers in ascending order. -/
def groupFor (p : Program) (a : Nat) : List (LabelType × Nat) :=
  (refsPairs p).filterMap
    (fun x => if x.2.2 = a then some (x.2.1, x.1) else none)

/-- The body of the `for (addr, indexes) in refs` loop of `assign`
(`labels.rs` lines 105-163).  The shipped match has no arm for
`Mark::String` targets (the file predates string marks); that case is
modelled as a panic (`none`). -/
def procTarget (acc : Option (Program × List Label))
    (entry : Nat × List (LabelType × Nat)) : Option (Program × List Label) :=
  acc.bind fun pl =>
    let p := pl.1
    let labs := pl.2
    let addr := entry.1
    let indexes := entry.2
    match (p.slots[addr]?).bind (fun s => s.mark) with
    | some (.opcode _) => do
      let r ← get_or_set_label p addr labs
      let p1 := set_label_type_fn r.2.1 addr indexes
      let p2 ← labelParamsList p1 indexes r.1 0
      pure (p2, r.2.2)
    | some (.param _) => do
      let this_op ← instr_addr p addr
      let prev_op := instr_addr p this_op
      if indexes.all (fun ti => decide (instr_addr p ti.2 = prev_op)) then do
        let p1 := set_label_type_fn p addr indexes
        let p2 ← labelParamsList p1 indexes Label.instructionPointer
          ((addr - this_op : Nat) : Int)
        pure (p2, labs)
      else do
        let r ← get_or_set_label p this_op labs
        let p1 := set_label_type_fn r.2.1 addr indexes
        let p2 ← labelParamsList p1 indexes r.1 ((addr - this_op : Nat) : Int)
        pure (p2, r.2.2)
    | some .string => none
    | some .data | none => do
      let r ← get_or_set_label p addr labs
      let p1 := set_label_type_fn r.2.1 addr indexes
      let p2 ← labelParamsList p1 indexes r.1 0
      pure (p2, r.2.2)

/-- `pub fn assign` (`labels.rs` lines 97-163): compute the reference map
from the original program, then process each target in address order. -/
def assign (p0 : Program) (labels0 : List Label) : Option Program :=
  let refsList := (targets p0).map (fun a => (a, groupFor p0 a))
  (refsList.foldl procTarget (some (p0, labels0))).map (·.1)

end Dis


namespace Run

theorem param_ptr_def (c : Computer) (k : Nat) :
    param_ptr c k =
      match ((mem_get c c.ptr).tdiv (10 ^ (1 + k))).tmod 10 with
      | 0 => cast (mem_get c (c.ptr + k))
      | 1 => .ok (c.ptr + k)
      | 2 => cast (c.relative_base + mem_get c (c.ptr + k))
      | mode => .err (.unknownMode mode) := rfl

theorem param_ptr_mode0 (c : Computer) (k : Nat) (h : modeDigit c k = 0) :
    param_ptr c k = cast (mem_get c (c.ptr + k)) := by
  rw [param_ptr_def, show ((mem_get c c.ptr).tdiv (10 ^ (1 + k))).tmod 10 = 0 from h]
  rfl

theorem param_ptr_mode1 (c : Computer) (k : Nat) (h : modeDigit c k = 1) :
    param_ptr c k = .ok (c.ptr + k) := by
  rw [param_ptr_def, show ((mem_get c c.ptr).tdiv (10 ^ (1 + k))).tmod 10 = 1 from h]
  rfl

theorem param_ptr_mode2 (c : Computer) (k : Nat) (h : modeDigit c k = 2) :
    param_ptr c k = cast (c.relative_base + mem_get c (c.ptr + k)) := by
  rw [param_ptr_def, show ((mem_get c c.ptr).tdiv (10 ^ (1 + k))).tmod 10 = 2 from h]
  rfl

theorem param_ptr_modeBad (c : Computer) (k : Nat) (h0 : modeDigit c k ≠ 0)
    (h1 : modeDigit c k ≠ 1) (h2 : modeDigit c k ≠ 2) :
    param_ptr c k = .err (.unknownMode (modeDigit c k)) := by
  unfold modeDigit at *
  rw [param_ptr_def]
  split
  all_goals simp_all

theorem param_of_ptr (c : Computer) (k : Nat) (a : Nat)
    (h : param_ptr c k = .ok a) : param c k = .ok (mem_get c a) := by
  unfold param
  rw [h]

theorem mem_get_congr {c c' : Computer} (h : c'.mem = c.mem) (a : Nat) :
    mem_get c' a = mem_get c a := by
  unfold mem_get
  rw [h]

theorem step_yielded_inv (c : Computer) (v : Int) (c' : Computer)
    (h : step c = .yielded v c') :
    (mem_get c c.ptr).tmod 100 = 4 ∧ c'.ptr = c.ptr + 2 ∧ c'.mem = c.mem ∧
    c'.input = c.input ∧ c'.relative_base = c.relative_base ∧
    param c 1 = .ok v := by
  simp only [step, runRes] at h
  repeat' split at h
  all_goals cases h
  refine ⟨by assumption, rfl, rfl, rfl, rfl, by assumption⟩

theorem step_waiting_inv (c c' : Computer) (h : step c = .waiting c') :
    c' = c ∧ (mem_get c c.ptr).tmod 100 = 3 ∧ c.input = [] := by
  simp only [step, runRes] at h
  repeat' split at h
  all_goals cases h
  exact ⟨rfl, by assumption, by assumption⟩

theorem step_input_pop (c : Computer) (v : Int) (rest : List Int)
    (c' : Computer) (h3 : (mem_get c c.ptr).tmod 100 = 3)
    (hin : c.input = v :: rest) (h : step c = .cont c') :
    c'.ptr = c.ptr + 2 ∧ c'.input = rest := by
  simp only [step, runRes] at h
  repeat' split at h
  all_goals cases h
  all_goals simp_all

theorem step_halt (c : Computer) (h : (mem_get c c.ptr).tmod 100 = 99) :
    step c = .complete c := by
  unfold step
  rw [h]
  rfl

theorem nextN_yielded_inv :
    ∀ (n : Nat) (c : Computer) (v : Int) (c' : Computer),
      nextN n c = some (.yielded v c') →
      2 ≤ c'.ptr ∧ (mem_get c' (c'.ptr - 2)).tmod 100 = 4 := by
  intro n
  induction n with
  | zero => intro c v c' h; cases h
  | succ n ih =>
    intro c v c' h
    unfold nextN at h
    cases hs : step c <;> rw [hs] at h <;> try cases h
    · exact ih _ _ _ h
    · obtain ⟨h4, hp, hm, -, -, -⟩ := step_yielded_inv _ _ _ hs
      refine ⟨by omega, ?_⟩
      rw [mem_get_congr hm, show c'.ptr - 2 = c.ptr by omega]
      exact h4

theorem nextN_waiting_inv :
    ∀ (n : Nat) (c : Computer) (c' : Computer),
      nextN n c = some (.waiting c') →
      (mem_get c' c'.ptr).tmod 100 = 3 ∧ c'.input = [] := by
  intro n
  induction n with
  | zero => intro c c' h; cases h
  | succ n ih =>
    intro c c' h
    unfold nextN at h
    cases hs : step c <;> rw [hs] at h <;> try cases h
    · exact ih _ _ h
    · obtain ⟨he, h3, hemp⟩ := step_waiting_inv _ _ hs
      subst he
      exact ⟨h3, hemp⟩

end Run

section ListFacts

theorem getD_append_left (l1 l2 : List Int) (i : Nat) (h : i < l1.length) :
    (l1 ++ l2).getD i 0 = l1.getD i 0 := by
  induction l1 generalizing i with
  | nil => simp at h
  | cons a t ih =>
    cases i with
    | zero => rfl
    | succ j => exact ih j (Nat.lt_of_succ_lt_succ h)

theorem getD_append_right (l1 l2 : List Int) (k : Nat) :
    (l1 ++ l2).getD (l1.length + k) 0 = l2.getD k 0 := by
  induction l1 with
  | nil => simp
  | cons a t ih =>
    rw [show (a :: t).length + k = (t.length + k) + 1 by
      simp [List.length_cons]; omega]
    show (t ++ l2).getD (t.length + k) 0 = l2.getD k 0
    exact ih

theorem getD_replicate (n k : Nat) :
    (List.replicate n (0 : Int)).getD k 0 = 0 := by
  induction n generalizing k with
  | zero => cases k <;> rfl
  | succ m ih => cases k with
    | zero => rfl
    | succ j => exact ih j

theorem getD_past_end (l : List Int) (i : Nat) (h : l.length ≤ i) :
    l.getD i 0 = 0 := by
  induction l generalizing i with
  | nil => cases i <;> rfl
  | cons a t ih =>
    cases i with
    | zero => simp at h
    | succ j => exact ih j (Nat.le_of_succ_le_succ h)

theorem getD_set_self (l : List Int) (i : Nat) (v : Int) (h : i < l.length) :
    (l.set i v).getD i 0 = v := by
  induction l generalizing i with
  | nil => simp at h
  | cons a t ih =>
    cases i with
    | zero => rfl
    | succ j => exact ih j (Nat.lt_of_succ_lt_succ h)

theorem getD_set_ne (l : List Int) (i j : Nat) (v : Int) (h : i ≠ j) :
    (l.set i v).getD j 0 = l.getD j 0 := by
  induction l generalizing i j with
  | nil => rfl
  | cons a t ih =>
    cases i with
    | zero => cases j with
      | zero => exact absurd rfl h
      | succ j' => rfl
    | succ i' => cases j with
      | zero => rfl
      | succ j' => exact ih i' j' fun hh => h (by rw [hh])

end ListFacts

section ClaimsVM

/-- Claim C2 (amended): for the VM at opcode word `W = mem[ip]`, the `k`-th
parameter (1-indexed) lives at `ip + k` and its mode digit is
`(W / 10^(k+1)) mod 10` (truncated division, as in Rust).  Digit 0 resolves
to address `mem[ip+k]` (reads give `mem[mem[ip+k]]`); digit 1 resolves to
address `ip + k` itself, both for reads (giving `mem[ip+k]`) and — contrary
to the original claim — for write targets, which are accepted without error
and write into the parameter's own slot; digit 2 resolves to address
`rb + mem[ip+k]`; any other digit produces the `UnknownMode` error. -/
theorem c2_parameter_resolution (c : Run.Computer) (k : Nat) :
    (Run.modeDigit c k =
        ((Run.mem_get c c.ptr).tdiv (10 ^ (k + 1))).tmod 10) ∧
    (Run.modeDigit c k = 0 → 0 ≤ Run.mem_get c (c.ptr + k) →
      Run.param_ptr c k = .ok (Run.mem_get c (c.ptr + k)).toNat ∧
      Run.param c k = .ok (Run.mem_get c (Run.mem_get c (c.ptr + k)).toNat)) ∧
    (Run.modeDigit c k = 1 →
      Run.param_ptr c k = .ok (c.ptr + k) ∧
      Run.param c k = .ok (Run.mem_get c (c.ptr + k))) ∧
    (Run.modeDigit c k = 2 → 0 ≤ c.relative_base + Run.mem_get c (c.ptr + k) →
      Run.param_ptr c k =
        .ok (c.relative_base + Run.mem_get c (c.ptr + k)).toNat) ∧
    (Run.modeDigit c k ≠ 0 → Run.modeDigit c k ≠ 1 → Run.modeDigit c k ≠ 2 →
      Run.param_ptr c k = .err (.unknownMode (Run.modeDigit c k))) := by
  refine ⟨by simp [Run.modeDigit, Nat.add_comm], ?_, ?_, ?_, ?_⟩
  · intro h hnn
    have hp : Run.param_ptr c k = .ok (Run.mem_get c (c.ptr + k)).toNat := by
      rw [Run.param_ptr_mode0 c k h, Run.cast, if_pos hnn]
    exact ⟨hp, Run.param_of_ptr c k _ hp⟩
  · intro h
    have hp := Run.param_ptr_mode1 c k h
    exact ⟨hp, Run.param_of_ptr c k _ hp⟩
  · intro h hnn
    rw [Run.param_ptr_mode2 c k h, Run.cast, if_pos hnn]
  · exact Run.param_ptr_modeBad c k

/-- Witness for C2: concrete instantiations of each hypothesis of the
amended claim. -/
theorem c2_parameter_resolution_witness :
    Run.param_ptr ⟨[21002, 7, 8, 5], 0, 3, []⟩ 1 = .ok 7 ∧
    Run.param_ptr ⟨[21002, 7, 8, 5], 0, 3, []⟩ 2 = .ok 2 ∧
    Run.param_ptr ⟨[21002, 7, 8, 5], 0, 3, []⟩ 3 = .ok 8 ∧
    Run.param_ptr ⟨[31002, 7, 8, 5], 0, 3, []⟩ 3 = .err (.unknownMode 3) := by
  refine ⟨?_, ?_, ?_, ?_⟩
  · exact ((c2_parameter_resolution ⟨[21002, 7, 8, 5], 0, 3, []⟩ 1).2.1
      (by decide) (by decide)).1
  · exact ((c2_parameter_resolution ⟨[21002, 7, 8, 5], 0, 3, []⟩ 2).2.2.1
      (by decide)).1
  · exact ((c2_parameter_resolution ⟨[21002, 7, 8, 5], 0, 3, []⟩ 3).2.2.2.1
      (by decide) (by decide))
  · exact ((c2_parameter_resolution ⟨[31002, 7, 8, 5], 0, 3, []⟩ 3).2.2.2.2
      (by decide) (by decide) (by decide))

/-- Counterexample to C2 as stated: an Add instruction whose write target
is in immediate mode (`W = 11101`) executes without any error; the sum is
written into the parameter's own slot (`mem[3]`), whereas the claim says
immediate mode "is not valid for a write target". -/
theorem c2_counterexample :
    Run.step ⟨[11101, 2, 3, 0, 99], 0, 0, []⟩ =
      .cont ⟨[11101, 2, 3, 5, 99], 4, 0, []⟩ ∧
    ∀ e, Run.step ⟨[11101, 2, 3, 0, 99], 0, 0, []⟩ ≠ .fail e := by
  have h : Run.step ⟨[11101, 2, 3, 0, 99], 0, 0, []⟩ =
      .cont ⟨[11101, 2, 3, 5, 99], 4, 0, []⟩ := by decide
  exact ⟨h, fun e hne => by rw [h] at hne; cases hne⟩

/-- Claim C3: the VM suspends at exactly two points besides completion and
error.  It yields `Yielded(v)` after an Output instruction with the
instruction pointer already advanced past the Output (by 2, memory and
queue untouched, `v` the value of the first parameter); it returns
`Waiting` at an Input instruction whose queue is empty with the state
completely unchanged (the pointer still points at the Input); Input
consumes a queued value and advances the pointer by 2 only on a
successful pop; Halt returns `Complete`.  The last two conjuncts lift the
suspension characterisation through the `next` loop. -/
theorem c3_suspension_points :
    (∀ (c : Run.Computer) (v : Int) (c' : Run.Computer),
      Run.step c = .yielded v c' →
        (Run.mem_get c c.ptr).tmod 100 = 4 ∧ c'.ptr = c.ptr + 2 ∧
        c'.mem = c.mem ∧ c'.input = c.input ∧ Run.param c 1 = .ok v) ∧
    (∀ (c c' : Run.Computer), Run.step c = .waiting c' →
        c' = c ∧ (Run.mem_get c c.ptr).tmod 100 = 3 ∧ c.input = []) ∧
    (∀ (c : Run.Computer) (v : Int) (rest : List Int) (c' : Run.Computer),
      (Run.mem_get c c.ptr).tmod 100 = 3 → c.input = v :: rest →
      Run.step c = .cont c' → c'.ptr = c.ptr + 2 ∧ c'.input = rest) ∧
    (∀ c : Run.Computer, (Run.mem_get c c.ptr).tmod 100 = 99 →
        Run.step c = .complete c) ∧
    (∀ (n : Nat) (c : Run.Computer) (v : Int) (c' : Run.Computer),
      Run.nextN n c = some (.yielded v c') →
        2 ≤ c'.ptr ∧ (Run.mem_get c' (c'.ptr - 2)).tmod 100 = 4) ∧
    (∀ (n : Nat) (c c' : Run.Computer),
      Run.nextN n c = some (.waiting c') →
        (Run.mem_get c' c'.ptr).tmod 100 = 3 ∧ c'.input = []) := by
  refine ⟨?_, Run.step_waiting_inv, Run.step_input_pop, Run.step_halt,
    Run.nextN_yielded_inv, Run.nextN_waiting_inv⟩
  intro c v c' h
  obtain ⟨h4, hp, hm, hi, -, hv⟩ := Run.step_yielded_inv c v c' h
  exact ⟨h4, hp, hm, hi, hv⟩

/-- Witness for C3: each hypothesis of the claim discharged at concrete
machines. -/
theorem c3_suspension_points_witness :
    ((Run.mem_get ⟨[104, 7], 0, 0, []⟩ 0).tmod 100 = 4 ∧ (2 : Nat) = 0 + 2 ∧
      ([104, 7] : List Int) = [104, 7] ∧ ([] : List Int) = [] ∧
      Run.param ⟨[104, 7], 0, 0, []⟩ 1 = .ok 7) ∧
    ((⟨[3, 0], 0, 0, []⟩ : Run.Computer) = ⟨[3, 0], 0, 0, []⟩ ∧
      (Run.mem_get ⟨[3, 0], 0, 0, []⟩ 0).tmod 100 = 3 ∧
      ([] : List Int) = []) ∧
    ((2 : Nat) = 0 + 2 ∧ ([] : List Int) = []) ∧
    Run.step ⟨[99], 0, 0, []⟩ = .complete ⟨[99], 0, 0, []⟩ ∧
    (2 ≤ 2 ∧
      (Run.mem_get ⟨[104, 7], 2, 0, []⟩ (2 - 2)).tmod 100 = 4) ∧
    ((Run.mem_get ⟨[3, 0], 0, 0, []⟩ 0).tmod 100 = 3 ∧
      ([] : List Int) = []) := by
  refine ⟨c3_suspension_points.1 ⟨[104, 7], 0, 0, []⟩ 7 ⟨[104, 7], 2, 0, []⟩
      (by decide),
    c3_suspension_points.2.1 ⟨[3, 0], 0, 0, []⟩ ⟨[3, 0], 0, 0, []⟩ (by decide),
    c3_suspension_points.2.2.1 ⟨[1103, 0, 99], 0, 0, [7]⟩ 7 []
      ⟨[1103, 7, 99], 2, 0, []⟩ (by decide) (by decide) (by decide),
    c3_suspension_points.2.2.2.1 ⟨[99], 0, 0, []⟩ (by decide),
    c3_suspension_points.2.2.2.2.1 1 ⟨[104, 7], 0, 0, []⟩ 7
      ⟨[104, 7], 2, 0, []⟩ (by decide),
    c3_suspension_points.2.2.2.2.2 1 ⟨[3, 0], 0, 0, []⟩ ⟨[3, 0], 0, 0, []⟩
      (by decide)⟩

/-- Claim C4: reads at or past the end of memory return 0 (without any
state change — `mem_get` is a pure function of the machine); after a write
to address `A` the memory has length `max(old, A+1) ≥ A+1`, the written
cell holds the new value, every other previously existing cell keeps its
value, and every newly created cell (including the gap cells below `A`)
reads as 0. -/
theorem c4_memory_growth (c : Run.Computer) (A : Nat) (v : Int) :
    (c.mem.length ≤ A → Run.mem_get c A = 0) ∧
    ((Run.mem_set c.mem A v).length = max c.mem.length (A + 1)) ∧
    (A + 1 ≤ (Run.mem_set c.mem A v).length) ∧
    ((Run.mem_set c.mem A v).getD A 0 = v) ∧
    (∀ i, i < c.mem.length → i ≠ A →
      (Run.mem_set c.mem A v).getD i 0 = c.mem.getD i 0) ∧
    (∀ i, c.mem.length ≤ i → i ≠ A →
      (Run.mem_set c.mem A v).getD i 0 = 0) := by
  have hlen : (c.mem ++ List.replicate (A + 1 - c.mem.length) (0 : Int)).length
      = max c.mem.length (A + 1) := by
    simp [List.length_append, List.length_replicate]
    omega
  refine ⟨fun h => getD_past_end c.mem A h, ?_, ?_, ?_, ?_, ?_⟩
  · rw [Run.mem_set, List.length_set, hlen]
  · rw [Run.mem_set, List.length_set, hlen]; omega
  · rw [Run.mem_set]
    exact getD_set_self _ A v (by rw [hlen]; omega)
  · intro i hi hne
    rw [Run.mem_set, getD_set_ne _ _ _ _ (fun h => hne h.symm),
      getD_append_left _ _ _ hi]
  · intro i hi hne
    rw [Run.mem_set, getD_set_ne _ _ _ _ (fun h => hne h.symm)]
    rcases Nat.lt_or_ge i (max c.mem.length (A + 1)) with hlt | hge
    · rw [show i = c.mem.length + (i - c.mem.length) by omega,
        getD_append_right]
      exact getD_replicate _ _
    · exact getD_past_end _ _ (by rw [hlen]; omega)

/-- Witness for C4: each hypothesis discharged concretely (memory `[7]`,
write at address 3). -/
theorem c4_memory_growth_witness :
    Run.mem_get ⟨[7], 0, 0, []⟩ 2 = 0 ∧
    (Run.mem_set [7] 3 9).getD 0 0 = 7 ∧
    (Run.mem_set [7] 3 9).getD 1 0 = 0 ∧
    (Run.mem_set [7] 3 9).getD 3 0 = 9 := by
  refine ⟨(c4_memory_growth ⟨[7], 0, 0, []⟩ 2 0).1 (by decide),
    (c4_memory_growth ⟨[7], 0, 0, []⟩ 3 9).2.2.2.2.1 0 (by decide) (by decide),
    (c4_memory_growth ⟨[7], 0, 0, []⟩ 3 9).2.2.2.2.2 1 (by decide) (by decide),
    (c4_memory_growth ⟨[7], 0, 0, []⟩ 3 9).2.2.2.1⟩

/-- Claim C5 (amended): when a positional or relative parameter resolves to
a negative address, the VM does *not* report the failure through the
`step()` error channel (the one carrying `UnknownMode`/`UnknownOpcode`);
instead `cast` — `usize::try_from(..).unwrap()` — panics and aborts the
process.  Panics are modelled by the `panicked` result, disjoint from the
`fail` results. -/
theorem c5_negative_address_panics (c : Run.Computer) (k : Nat) :
    (Run.modeDigit c k = 0 → Run.mem_get c (c.ptr + k) < 0 →
      Run.param_ptr c k = .panicked ∧ ∀ e, Run.param_ptr c k ≠ .err e) ∧
    (Run.modeDigit c k = 2 →
      c.relative_base + Run.mem_get c (c.ptr + k) < 0 →
      Run.param_ptr c k = .panicked ∧ ∀ e, Run.param_ptr c k ≠ .err e) := by
  constructor
  · intro h hneg
    have hp : Run.param_ptr c k = .panicked := by
      rw [Run.param_ptr_mode0 c k h, Run.cast, if_neg (by omega)]
    exact ⟨hp, fun e he => by rw [hp] at he; cases he⟩
  · intro h hneg
    have hp : Run.param_ptr c k = .panicked := by
      rw [Run.param_ptr_mode2 c k h, Run.cast, if_neg (by omega)]
    exact ⟨hp, fun e he => by rw [hp] at he; cases he⟩

/-- Witness for C5: an Output instruction whose positional parameter is
`-1`, and a relative parameter whose base plus offset is negative. -/
theorem c5_negative_address_panics_witness :
    (Run.param_ptr ⟨[4, -1], 0, 0, []⟩ 1 = .panicked ∧
      ∀ e, Run.param_ptr ⟨[4, -1], 0, 0, []⟩ 1 ≠ .err e) ∧
    (Run.param_ptr ⟨[204, -5], 0, 2, []⟩ 1 = .panicked ∧
      ∀ e, Run.param_ptr ⟨[204, -5], 0, 2, []⟩ 1 ≠ .err e) := by
  exact ⟨(c5_negative_address_panics ⟨[4, -1], 0, 0, []⟩ 1).1
      (by decide) (by decide),
    (c5_negative_address_panics ⟨[204, -5], 0, 2, []⟩ 1).2
      (by decide) (by decide)⟩

/-- Counterexample to C5 as stated: running the one-instruction program
`[4, -1]` (Output of the value at address `-1`) ends in a panic, not in an
`Error` returned by `step()`. -/
theorem c5_counterexample :
    Run.nextN 1 ⟨[4, -1], 0, 0, []⟩ = some .panicked ∧
    ∀ e, Run.nextN 1 ⟨[4, -1], 0, 0, []⟩ ≠ some (.fail e) := by
  have h : Run.nextN 1 ⟨[4, -1], 0, 0, []⟩ = some .panicked := by decide
  exact ⟨h, fun e he => by rw [h] at he; cases he⟩

end ClaimsVM



section ClaimsLex

/-- Claim C7 is a code bug (`lex.rs` doc comment for `Token::Whitespace`
says "A sequence of tab (0x09) and/or spaces (0x20)", and the spec says LF
is always its own `Newline` token): the whitespace run is scanned with
`char::is_ascii_whitespace`, which also matches LF, FF and CR.  On the
source `" \n"` the lexer produces a single `Whitespace` token spanning
both bytes and no `Newline` token at all; a lone CR also becomes
`Whitespace`.  A lone LF (third conjunct) is still lexed as `Newline`,
confirming the single-character rule when no whitespace run precedes. -/
theorem c7_whitespace_swallows_newline :
    Lex.lex [' ', '\n'] =
      .ok [((0, 2), Lex.Token.whitespace), ((2, 2), Lex.Token.eof)] ∧
    Lex.lex ['\r'] =
      .ok [((0, 1), Lex.Token.whitespace), ((1, 1), Lex.Token.eof)] ∧
    Lex.lex ['\n'] =
      .ok [((0, 1), Lex.Token.newline), ((1, 1), Lex.Token.eof)] := by
  refine ⟨?_, ?_, ?_⟩ <;> rfl

end ClaimsLex

namespace Asm

theorem set_append_add (l1 l2 : List Int) (k : Nat) (v : Int) :
    (l1 ++ l2).set (l1.length + k) v = l1 ++ l2.set k v := by
  induction l1 with
  | nil => simp
  | cons a t ih =>
    rw [show (a :: t).length + k = (t.length + k) + 1 by
      simp [List.length_cons]; omega]
    show a :: ((t ++ l2).set (t.length + k) v) = a :: (t ++ l2.set k v)
    rw [ih]

theorem patchAdd_mid (o t : List Int) (a d : Int) :
    patchAdd (o ++ a :: t) o.length d = o ++ (a + d) :: t := by
  unfold patchAdd
  have h1 : (o ++ a :: t).getD o.length 0 = a := by
    have h := getD_append_right o (a :: t) 0
    rw [Nat.add_zero] at h
    exact h.trans rfl
  rw [h1]
  have h2 := set_append_add o (a :: t) 0 (a + d)
  rw [Nat.add_zero] at h2
  exact h2

theorem mem_refsOf_pushRef (m : LabelMap) (name : String) (pos : Nat) :
    ∀ r, r ∈ refsOf (pushRef m name pos) ↔ r ∈ refsOf m ∨ r = pos := by
  induction m with
  | nil => intro r; simp [pushRef, entryUpdate, refsOf]
  | cons e rest ih =>
    obtain ⟨n, st⟩ := e
    intro r
    by_cases h : n = name
    · show r ∈ refsOf (entryUpdate ((n, st) :: rest) name _) ↔ _
      rw [entryUpdate, if_pos h]
      show r ∈ (st.refs ++ [pos]) ++ refsOf rest ↔ _
      simp [refsOf, List.mem_append]
      tauto
    · show r ∈ refsOf (entryUpdate ((n, st) :: rest) name _) ↔ _
      rw [entryUpdate, if_neg h]
      show r ∈ st.refs ++ refsOf (pushRef rest name pos) ↔ _
      simp only [List.mem_append, ih r, refsOf]
      tauto

theorem refsOf_pushDef (m : LabelMap) (name : String) (addr : Nat) :
    refsOf (pushDef m name addr) = refsOf m := by
  induction m with
  | nil => rfl
  | cons e rest ih =>
    obtain ⟨n, st⟩ := e
    by_cases h : n = name
    · show refsOf (entryUpdate ((n, st) :: rest) name _) = _
      rw [entryUpdate, if_pos h]
      rfl
    · show refsOf (entryUpdate ((n, st) :: rest) name _) = _
      rw [entryUpdate, if_neg h]
      show st.refs ++ refsOf (pushDef rest name addr) = _
      rw [ih]
      rfl

theorem insert_label_refs (labels : LabelMap) (l : Option Label)
    (addr : Nat) : refsOf (insert_label labels l addr).1 = refsOf labels := by
  unfold insert_label
  split <;> simp [refsOf_pushDef]

theorem paramEmit_spec (out : List Int) (labs : LabelMap) (p : Param)
    (ip : Int) :
    (paramEmit out labs p ip).1 = paramMode p ∧
    (paramEmit out labs p ip).2.1 = out ++ [paramValue ip p] := by
  cases p with
  | number m v => exact ⟨rfl, rfl⟩
  | label m l off => cases l <;> exact ⟨rfl, rfl⟩

theorem paramEmit_refs (out : List Int) (labs : LabelMap) (p : Param)
    (ip : Int) (r : Nat) (h : r ∈ refsOf (paramEmit out labs p ip).2.2) :
    r ∈ refsOf labs ∨ r = out.length := by
  cases p with
  | number m v => exact .inl h
  | label m l off =>
    cases l with
    | underscore => exact .inl h
    | instructionPointer => exact .inl h
    | fixed name => exact (mem_refsOf_pushRef labs name out.length r).1 h

theorem emitParams_spec (ps : List Param) (ip : Int) :
    ∀ (out : List Int) (labs : LabelMap),
      (emitParams ps ip (out, labs)).1.1 = out ++ ps.map (paramValue ip) ∧
      (emitParams ps ip (out, labs)).2 = ps.map paramMode := by
  induction ps with
  | nil => intro out labs; simp [emitParams]
  | cons p rest ih =>
    intro out labs
    obtain ⟨h1, h2⟩ := paramEmit_spec out labs p ip
    obtain ⟨ih1, ih2⟩ :=
      ih (paramEmit out labs p ip).2.1 (paramEmit out labs p ip).2.2
    constructor
    · show (emitParams rest ip _).1.1 = _
      rw [ih1, h2, List.map_cons, List.append_assoc]
      rfl
    · show (emitParams rest ip _).2.cons _ = _
      rw [List.map_cons]
      exact congrArg₂ _ h1 ih2

theorem emitParams_refs (ps : List Param) (ip : Int) :
    ∀ (out : List Int) (labs : LabelMap) (r : Nat),
      r ∈ refsOf (emitParams ps ip (out, labs)).1.2 →
      r ∈ refsOf labs ∨ (out.length ≤ r ∧ r < out.length + ps.length) := by
  induction ps with
  | nil => intro out labs r h; exact .inl h
  | cons p rest ih =>
    intro out labs r h
    obtain ⟨-, h2⟩ := paramEmit_spec out labs p ip
    have step := ih (paramEmit out labs p ip).2.1 (paramEmit out labs p ip).2.2
      r h
    rcases step with hin | ⟨hlo, hhi⟩
    · rcases paramEmit_refs out labs p ip r hin with hl | he
      · exact .inl hl
      · refine .inr ⟨by omega, ?_⟩
        simp [List.length_cons]
        omega
    · rw [h2] at hlo hhi
      simp [List.length_append] at hlo hhi
      refine .inr ⟨by omega, ?_⟩
      simp [List.length_cons]
      omega

end Asm

namespace Asm

theorem dataWords_len (ip : Int) (d : RawParam) :
    (dataWords ip d).length = d.len := by
  cases d with
  | label l off => cases l <;> rfl
  | number v => rfl
  | string bytes =>
    show (bytes.map Int.ofNat).length = bytes.length
    simp

theorem emitData_out (ip : Int) (acc : List Int × LabelMap) (d : RawParam) :
    (emitData ip acc d).1 = acc.1 ++ dataWords ip d := by
  cases d with
  | label l off => cases l <;> rfl
  | number v => rfl
  | string bytes => rfl

theorem emitData_refs (ip : Int) (acc : List Int × LabelMap) (d : RawParam)
    (r : Nat) (h : r ∈ refsOf (emitData ip acc d).2) :
    r ∈ refsOf acc.2 ∨ (r = acc.1.length ∧ d.len = 1) := by
  cases d with
  | label l off =>
    cases l with
    | underscore => exact .inl h
    | instructionPointer => exact .inl h
    | fixed name =>
      rcases (mem_refsOf_pushRef acc.2 name acc.1.length r).1 h with h1 | h2
      · exact .inl h1
      · exact .inr ⟨h2, rfl⟩
  | number v => exact .inl h
  | string bytes => exact .inl h

theorem wordsOfData_len (ip : Int) (ds : List RawParam) :
    (wordsOfData ip ds).length = (ds.map RawParam.len).sum := by
  induction ds with
  | nil => rfl
  | cons d rest ih =>
    simp [wordsOfData, List.length_append, dataWords_len, ih]

theorem foldl_emitData_out (ip : Int) (ds : List RawParam) :
    ∀ acc : List Int × LabelMap,
      (ds.foldl (emitData ip) acc).1 = acc.1 ++ wordsOfData ip ds := by
  induction ds with
  | nil => intro acc; simp [wordsOfData]
  | cons d rest ih =>
    intro acc
    show (rest.foldl (emitData ip) (emitData ip acc d)).1 = _
    rw [ih (emitData ip acc d), emitData_out, wordsOfData,
      List.append_assoc]

theorem foldl_emitData_refs (ip : Int) (ds : List RawParam) :
    ∀ (acc : List Int × LabelMap) (r : Nat),
      r ∈ refsOf (ds.foldl (emitData ip) acc).2 →
      r ∈ refsOf acc.2 ∨
        (acc.1.length ≤ r ∧ r < acc.1.length + (ds.map RawParam.len).sum) := by
  induction ds with
  | nil => intro acc r h; exact .inl h
  | cons d rest ih =>
    intro acc r h
    have hlen : (emitData ip acc d).1.length = acc.1.length + d.len := by
      rw [emitData_out]
      simp [List.length_append, dataWords_len]
    rcases ih (emitData ip acc d) r h with hin | ⟨hlo, hhi⟩
    · rcases emitData_refs ip acc d r hin with h1 | ⟨h2, hl1⟩
      · exact .inl h1
      · refine .inr ⟨by omega, ?_⟩
        have : ((d :: rest).map RawParam.len).sum =
            d.len + (rest.map RawParam.len).sum := by simp
        omega
    · rw [hlen] at hlo hhi
      refine .inr ⟨by omega, ?_⟩
      have : ((d :: rest).map RawParam.len).sum =
          d.len + (rest.map RawParam.len).sum := by simp
      omega

theorem emitInstr_spec (st : AsmSt) (opv : Int) (ps : List Param) :
    (emitInstr st opv ps).output =
      st.output ++
        (opv + modeSum (ps.map paramMode)) ::
          ps.map (paramValue ((st.output.length : Int) + 1 + ps.length)) ∧
    (emitInstr st opv ps).errors = st.errors := by
  obtain ⟨h1, h2⟩ :=
    emitParams_spec ps ((st.output.length : Int) + 1 + ps.length)
      (st.output ++ [opv]) st.labels
  constructor
  · show patchAdd
      (emitParams ps ((st.output.length : Int) + 1 + ps.length)
        (st.output ++ [opv], st.labels)).1.1 st.output.length
      (modeSum (emitParams ps ((st.output.length : Int) + 1 + ps.length)
        (st.output ++ [opv], st.labels)).2) = _
    rw [h1, h2, List.append_assoc]
    exact patchAdd_mid st.output _ opv (modeSum (ps.map paramMode))
  · rfl

theorem emitInstr_refs (st : AsmSt) (opv : Int) (ps : List Param) (r : Nat)
    (h : r ∈ refsOf (emitInstr st opv ps).labels) :
    r ∈ refsOf st.labels ∨
      (st.output.length + 1 ≤ r ∧ r < st.output.length + 1 + ps.length) := by
  have h' := emitParams_refs ps ((st.output.length : Int) + 1 + ps.length)
    (st.output ++ [opv]) st.labels r h
  rcases h' with h1 | ⟨h2a, h2b⟩
  · exact .inl h1
  · simp [List.length_append] at h2a h2b
    exact .inr ⟨by omega, by omega⟩

theorem procStmt_out (st : AsmSt) (s : Stmt) :
    ∃ ext, (procStmt st s).output = st.output ++ ext ∧
      ext.length = s.size ∧
      (∀ w, instrWord s = some w → ext.getD 0 0 = w) := by
  obtain ⟨lab, instr⟩ := s
  cases instr
  case data ps =>
    refine ⟨wordsOfData ((st.output.length : Int) + ps.length) ps, ?_, ?_, ?_⟩
    · exact foldl_emitData_out _ ps
        (st.output, (insert_label st.labels lab st.output.length).1)
    · rw [wordsOfData_len]; rfl
    · intro w hw; simp [instrWord] at hw
  case halt =>
    refine ⟨[99], rfl, rfl, ?_⟩
    intro w hw
    simp [instrWord, Instr.opcode, modeSum, Instr.paramList] at hw
    show (99 : Int) = w
    omega
  all_goals {
    refine ⟨_, (emitInstr_spec _ _ _).1, ?_, ?_⟩
    · simp [Stmt.size, Instr.paramList]
    · intro w hw
      simp only [instrWord] at hw
      cases hw
      rfl
  }

theorem procStmt_refs (st : AsmSt) (s : Stmt) (r : Nat)
    (h : r ∈ refsOf (procStmt st s).labels) :
    r ∈ refsOf st.labels ∨
      (st.output.length ≤ r ∧ r < st.output.length + s.size ∧
        (s.isData = true ∨ st.output.length < r)) := by
  obtain ⟨lab, instr⟩ := s
  cases instr
  case data ps =>
    have h' := foldl_emitData_refs ((st.output.length : Int) + ps.length) ps
      (st.output, (insert_label st.labels lab st.output.length).1) r h
    rcases h' with hin | ⟨hlo, hhi⟩
    · left
      rwa [insert_label_refs] at hin
    · exact .inr ⟨hlo, hhi, .inl rfl⟩
  case halt =>
    have he : (procStmt st ⟨lab, .halt⟩).labels =
        (insert_label st.labels lab st.output.length).1 := rfl
    rw [he, insert_label_refs] at h
    exact .inl h
  all_goals {
    rcases emitInstr_refs _ _ _ r h with h1 | ⟨h2a, h2b⟩
    · left
      rwa [insert_label_refs] at h1
    · right
      dsimp only at h2a h2b
      refine ⟨by omega, ?_, .inr (by omega)⟩
      simp only [Stmt.size, Instr.paramList, List.length_cons,
        List.length_nil] at h2b ⊢
      omega
  }

end Asm

namespace Asm

theorem totalSize_cons (s : Stmt) (rest : List Stmt) :
    totalSize (s :: rest) = s.size + totalSize rest := by
  simp [totalSize]

theorem startAddr_zero (stmts : List Stmt) : startAddr stmts 0 = 0 := rfl

theorem startAddr_succ (s : Stmt) (rest : List Stmt) (j : Nat) :
    startAddr (s :: rest) (j + 1) = s.size + startAddr rest j := by
  simp [startAddr, totalSize, List.take_succ_cons]

theorem nonDataStarts_lb :
    ∀ (stmts : List Stmt) (base x : Nat), x ∈ nonDataStarts stmts base →
      base ≤ x := by
  intro stmts
  induction stmts with
  | nil => intro base x h; cases h
  | cons s rest ih =>
    intro base x h
    rcases List.mem_append.1 h with h1 | h2
    · by_cases hd : s.isData
      · simp [hd] at h1
      · simp [hd] at h1
        omega
    · have := ih (base + s.size) x h2
      omega

theorem size_pos_nonData (s : Stmt) (h : s.isData = false) : 1 ≤ s.size := by
  obtain ⟨lab, instr⟩ := s
  cases instr
  case data ps => simp [Stmt.isData] at h
  all_goals simp [Stmt.size, Instr.paramList]

theorem instrWord_not_isData (s : Stmt) (w : Int)
    (h : instrWord s = some w) : s.isData = false := by
  obtain ⟨lab, instr⟩ := s
  cases instr <;> first
    | rfl
    | simp [instrWord] at h

theorem size_pos_of_instrWord (s : Stmt) (w : Int)
    (h : instrWord s = some w) : 1 ≤ s.size :=
  size_pos_nonData s (instrWord_not_isData s w h)

theorem mem_nonDataStarts :
    ∀ (stmts : List Stmt) (j : Nat) (hj : j < stmts.length) (base : Nat),
      (stmts.get ⟨j, hj⟩).isData = false →
      base + startAddr stmts j ∈ nonDataStarts stmts base := by
  intro stmts
  induction stmts with
  | nil => intro j hj; exact absurd hj (by simp)
  | cons s rest ih =>
    intro j hj base hnd
    cases j with
    | zero =>
      rw [startAddr_zero, Nat.add_zero]
      refine List.mem_append.2 (.inl ?_)
      have : s.isData = false := hnd
      simp [this]
    | succ j' =>
      rw [startAddr_succ, show base + (s.size + startAddr rest j') =
        (base + s.size) + startAddr rest j' by omega]
      refine List.mem_append.2 (.inr ?_)
      exact ih j' (by simpa using hj) (base + s.size) hnd

theorem pass1_out (stmts : List Stmt) :
    ∀ st : AsmSt, ∃ ext, (pass1 stmts st).output = st.output ++ ext ∧
      ext.length = totalSize stmts := by
  induction stmts with
  | nil => intro st; exact ⟨[], by simp [pass1], rfl⟩
  | cons s rest ih =>
    intro st
    obtain ⟨ext1, h1, hl1, -⟩ := procStmt_out st s
    obtain ⟨ext2, h2, hl2⟩ := ih (procStmt st s)
    refine ⟨ext1 ++ ext2, ?_, ?_⟩
    · show (pass1 rest (procStmt st s)).output = _
      rw [h2, h1, List.append_assoc]
    · rw [totalSize_cons, List.length_append, hl1, hl2]

theorem procStmt_len (st : AsmSt) (s : Stmt) :
    (procStmt st s).output.length = st.output.length + s.size := by
  obtain ⟨ext, h, hl, -⟩ := procStmt_out st s
  rw [h, List.length_append, hl]

theorem pass1_getD (stmts : List Stmt) :
    ∀ (st : AsmSt) (j : Nat) (hj : j < stmts.length) (w : Int),
      instrWord (stmts.get ⟨j, hj⟩) = some w →
      (pass1 stmts st).output.getD (st.output.length + startAddr stmts j) 0
        = w := by
  induction stmts with
  | nil => intro st j hj; exact absurd hj (by simp)
  | cons s rest ih =>
    intro st j hj w hw
    cases j with
    | zero =>
      rw [startAddr_zero, Nat.add_zero]
      obtain ⟨ext1, h1, hl1, hw1⟩ := procStmt_out st s
      obtain ⟨ext2, h2, -⟩ := pass1_out rest (procStmt st s)
      show (pass1 rest (procStmt st s)).output.getD st.output.length 0 = w
      rw [h2, h1, List.append_assoc]
      have hidx := getD_append_right st.output (ext1 ++ ext2) 0
      rw [Nat.add_zero] at hidx
      rw [hidx, getD_append_left ext1 ext2 0 ?hpos]
      · exact hw1 w hw
      case hpos =>
        have hpos := size_pos_of_instrWord s w hw
        omega
    | succ j' =>
      rw [startAddr_succ, show st.output.length + (s.size + startAddr rest j')
        = (procStmt st s).output.length + startAddr rest j' by
          rw [procStmt_len]; omega]
      exact ih (procStmt st s) j' (by simpa using hj) w hw

theorem pass1_refs (stmts : List Stmt) :
    ∀ (st : AsmSt) (r : Nat), r ∈ refsOf (pass1 stmts st).labels →
      r ∈ refsOf st.labels ∨
        (st.output.length ≤ r ∧ r < st.output.length + totalSize stmts ∧
          r ∉ nonDataStarts stmts st.output.length) := by
  induction stmts with
  | nil => intro st r h; exact .inl h
  | cons s rest ih =>
    intro st r h
    have hlen := procStmt_len st s
    have htot := totalSize_cons s rest
    rcases ih (procStmt st s) r h with h1 | ⟨hlo, hhi, hnm⟩
    · rcases procStmt_refs st s r h1 with h2 | ⟨hlo, hhi, hor⟩
      · exact .inl h2
      · refine .inr ⟨hlo, by omega, ?_⟩
        intro hmem
        rcases List.mem_append.1 hmem with hm1 | hm2
        · rcases hor with hd | hlt
          · simp [hd] at hm1
          · by_cases hd : s.isData
            · simp [hd] at hm1
            · simp [hd] at hm1
              omega
        · have := nonDataStarts_lb rest (st.output.length + s.size) r hm2
          omega
    · rw [hlen] at hlo hhi hnm
      refine .inr ⟨by omega, by omega, ?_⟩
      intro hmem
      rcases List.mem_append.1 hmem with hm1 | hm2
      · by_cases hd : s.isData
        · simp [hd] at hm1
        · simp [hd] at hm1
          have := size_pos_nonData s (by simpa using hd)
          omega
      · exact hnm hm2


theorem foldl_patch_getD :
    ∀ (rs : List Nat) (o : List Int) (a : Int) (p : Nat),
      (∀ r ∈ rs, r ≠ p) →
      (rs.foldl (fun o r => patchAdd o r a) o).getD p 0 = o.getD p 0 := by
  intro rs
  induction rs with
  | nil => intro o a p _; rfl
  | cons r rest ih =>
    intro o a p hp
    show (rest.foldl _ (patchAdd o r a)).getD p 0 = _
    rw [ih (patchAdd o r a) a p (fun x hx => hp x (List.mem_cons_of_mem r hx))]
    unfold patchAdd
    exact getD_set_ne o r p _ (hp r (List.mem_cons_self r rest))

theorem procEntry_getD (acc : List Int × List String × List String)
    (e : String × LState) (p : Nat) (hp : ∀ r ∈ e.2.refs, r ≠ p) :
    (procEntry acc e).1.getD p 0 = acc.1.getD p 0 := by
  obtain ⟨name, st⟩ := e
  obtain ⟨out, errs, warns⟩ := acc
  rcases hd : st.defs with - | ⟨a, - | ⟨b, tl⟩⟩
  · simp [procEntry, hd]
  · simp only [procEntry, hd]
    split
    · rfl
    · exact foldl_patch_getD st.refs out _ p hp
  · simp [procEntry, hd]

theorem pass2_getD :
    ∀ (entries : LabelMap) (acc : List Int × List String × List String)
      (p : Nat), (∀ r, r ∈ refsOf entries → r ≠ p) →
      (entries.foldl procEntry acc).1.getD p 0 = acc.1.getD p 0 := by
  intro entries
  induction entries with
  | nil => intro acc p _; rfl
  | cons e rest ih =>
    intro acc p hp
    show (rest.foldl procEntry (procEntry acc e)).1.getD p 0 = _
    rw [ih (procEntry acc e) p
      (fun r hr => hp r (List.mem_append.2 (.inr hr)))]
    exact procEntry_getD acc e p
      (fun r hr => hp r (List.mem_append.2 (.inl hr)))

end Asm

section ClaimsAsm

/-- Claim C1: for every successfully assembled program and every non-data
statement in it (opcode `op`, parameter modes `m1..mk`, `k ≤ 3`), the word
emitted at the statement's start address equals
`op + 100·m1 + 1000·m2 + 10000·m3` (`modeSum` of the parameter modes, with
absent parameters contributing zero).  Pass 2 only patches parameter
value slots, never an opcode word. -/
theorem c1_opcode_mode_encoding (stmts : List Asm.Stmt) (out : List Int)
    (warns : List String) (h : Asm.assemble stmts = .ok (out, warns))
    (j : Nat) (hj : j < stmts.length) (w : Int)
    (hw : Asm.instrWord (stmts.get ⟨j, hj⟩) = some w) :
    out.getD (Asm.startAddr stmts j) 0 = w := by
  simp only [Asm.assemble] at h
  split at h
  case isFalse => cases h
  case isTrue =>
    rw [Except.ok.injEq, Prod.mk.injEq] at h
    obtain ⟨hout, -⟩ := h
    subst hout
    have hdisj : ∀ r, r ∈ Asm.refsOf (Asm.pass1 stmts ⟨[], [], []⟩).labels →
        r ≠ Asm.startAddr stmts j := by
      intro r hr
      rcases Asm.pass1_refs stmts ⟨[], [], []⟩ r hr with h0 | ⟨-, -, hnm⟩
      · simp [Asm.refsOf] at h0
      · intro he
        apply hnm
        rw [he]
        have hm := Asm.mem_nonDataStarts stmts j hj 0
          (Asm.instrWord_not_isData _ w hw)
        rw [Nat.zero_add] at hm
        exact hm
    rw [Asm.pass2_getD _ _ _ hdisj]
    have hg := Asm.pass1_getD stmts ⟨[], [], []⟩ j hj w hw
    rw [show (⟨[], [], []⟩ : Asm.AsmSt).output.length + Asm.startAddr stmts j
      = Asm.startAddr stmts j by simp] at hg
    exact hg

/-- Witness for C1: the spec scenario `MUL a, #3, 4 / a: DB 33` assembles
to `1002,4,3,4,33`, and the word at the `MUL` statement's address is
`2 + 100·0 + 1000·1 + 10000·0 = 1002`. -/
theorem c1_opcode_mode_encoding_witness :
    ([1002, 4, 3, 4, 33] : List Int).getD 0 0 = 1002 :=
  c1_opcode_mode_encoding
    [⟨none, .multiply (.label .positional (.fixed "a") 0)
        (.number .immediate 3) (.number .positional 4)⟩,
     ⟨some (.fixed "a"), .data [.number 33]⟩]
    [1002, 4, 3, 4, 33] [] rfl 0 (by decide) 1002 (by decide)

/-- Claim C6 is a code bug: the backend computes the `ip` value of a `DB`
statement as `output.len() + data.len()`, counting one word per data
*parameter*, although a string parameter emits one word per UTF-8 byte.
On `DB _, ip+1, "abc"` (the repo's own test `db_with_ip` in
`src/core/assemble/tests/run.rs`, which expects `0,6,97,98,99`) the code
emits `0,4,97,98,99`: the statement occupies 5 words (second conjunct), so
`ip+1` should assemble to 6, but the parameter count (3) yields 4. -/
theorem c6_db_ip_counts_params_not_words :
    Asm.assemble [⟨none, .data [.label .underscore 0,
        .label .instructionPointer 1, .string [97, 98, 99]]⟩] =
      .ok ([0, 4, 97, 98, 99], []) ∧
    Asm.totalSize [⟨none, .data [.label .underscore 0,
        .label .instructionPointer 1, .string [97, 98, 99]]⟩] = 5 :=
  ⟨rfl, rfl⟩

end ClaimsAsm

namespace Dis

theorem listModify_length {α : Type} (f : α → α) :
    ∀ (i : Nat) (l : List α), (listModify f i l).length = l.length := by
  intro i l
  induction l generalizing i with
  | nil => cases i <;> rfl
  | cons a t ih => cases i with
    | zero => rfl
    | succ j => simpa [listModify] using ih j

theorem listModify_get_self {α : Type} (f : α → α) :
    ∀ (i : Nat) (l : List α), (listModify f i l)[i]? = (l[i]?).map f := by
  intro i l
  induction l generalizing i with
  | nil => cases i <;> rfl
  | cons a t ih => cases i with
    | zero => simp [listModify]
    | succ j => simpa [listModify] using ih j

theorem listModify_get_ne {α : Type} (f : α → α) :
    ∀ (i j : Nat) (l : List α), i ≠ j →
      (listModify f i l)[j]? = l[j]? := by
  intro i j l
  induction l generalizing i j with
  | nil => intro _; cases i <;> rfl
  | cons a t ih =>
    intro hne
    cases i with
    | zero => cases j with
      | zero => exact absurd rfl hne
      | succ j' => simp [listModify]
    | succ i' => cases j with
      | zero => simp [listModify]
      | succ j' => simpa [listModify] using ih i' j' (fun h => hne (by rw [h]))

theorem len_modify (p : Program) (f : Slot → Slot) (i : Nat) :
    (Program.mk (listModify f i p.slots)).len = p.len := by
  simp [Program.len, listModify_length]

end Dis

namespace Dis

theorem setMark_slots_get_self (p : Program) (addr : Nat) (mo : Option Mark)
    (slot : Slot) (hs : p.slots[addr]? = some slot) :
    (Program.mk (listModify (fun s => { s with mark := mo }) addr
      p.slots)).slots[addr]? = some { slot with mark := mo } := by
  show (listModify _ addr p.slots)[addr]? = _
  rw [listModify_get_self, hs]
  rfl

theorem setMark_slots_get_ne (p : Program) (addr j : Nat) (mo : Option Mark)
    (h : addr ≠ j) :
    (Program.mk (listModify (fun s => { s with mark := mo }) addr
      p.slots)).slots[j]? = p.slots[j]? := by
  show (listModify _ addr p.slots)[j]? = _
  rw [listModify_get_ne _ _ _ _ h]

theorem setMark_slotMark_self (p : Program) (addr : Nat) (mo : Option Mark)
    (slot : Slot) (hs : p.slots[addr]? = some slot) :
    slotMark (Program.mk (listModify (fun s => { s with mark := mo }) addr
      p.slots)) addr = mo := by
  unfold slotMark
  rw [setMark_slots_get_self p addr mo slot hs]
  rfl

theorem setMark_slotMark_ne (p : Program) (addr j : Nat) (mo : Option Mark)
    (h : addr ≠ j) :
    slotMark (Program.mk (listModify (fun s => { s with mark := mo }) addr
      p.slots)) j = slotMark p j := by
  unfold slotMark
  rw [setMark_slots_get_ne p addr j mo h]

theorem setMark_agree (p : Program) (addr : Nat) (mo : Option Mark) :
    SlotsAgreeExceptMark p (Program.mk (listModify
      (fun s => { s with mark := mo }) addr p.slots)) := by
  intro j
  by_cases h : addr = j
  · subst h
    show ((listModify _ addr p.slots)[addr]?).map eraseMark = _
    rw [listModify_get_self]
    cases p.slots[addr]? <;> rfl
  · rw [setMark_slots_get_ne p addr j mo h]

theorem agree_refl (p : Program) : SlotsAgreeExceptMark p p :=
  fun _ => rfl

theorem agree_trans {p q r : Program} (h1 : SlotsAgreeExceptMark p q)
    (h2 : SlotsAgreeExceptMark q r) : SlotsAgreeExceptMark p r :=
  fun j => (h2 j).trans (h1 j)

theorem extend_refl (p : Program) : MarksExtend p p :=
  ⟨agree_refl p, fun _ _ h => h⟩

theorem extend_trans {p q r : Program} (h1 : MarksExtend p q)
    (h2 : MarksExtend q r) : MarksExtend p r :=
  ⟨agree_trans h1.1 h2.1, fun j m h => h2.2 j m (h1.2 j m h)⟩

theorem eraseMark_fields {s1 s2 : Slot} (h : eraseMark s1 = eraseMark s2) :
    s1.raw = s2.raw ∧ s1.mentions = s2.mentions ∧ s1.label = s2.label ∧
      s1.label_type = s2.label_type := by
  have h1 := congrArg Slot.raw h
  have h2 := congrArg Slot.mentions h
  have h3 := congrArg Slot.label h
  have h4 := congrArg Slot.label_type h
  exact ⟨h1, h2, h3, h4⟩

theorem agree_some_iff {p q : Program} (h : SlotsAgreeExceptMark p q)
    (j : Nat) :
    (∀ s1, q.slots[j]? = some s1 → ∃ s2, p.slots[j]? = some s2 ∧
      eraseMark s1 = eraseMark s2) ∧
    (q.slots[j]? = none → p.slots[j]? = none) := by
  have hj := h j
  constructor
  · intro s1 h1
    rw [h1] at hj
    cases hp : p.slots[j]? with
    | none => rw [hp] at hj; cases hj
    | some s2 =>
      rw [hp] at hj
      simp at hj
      exact ⟨s2, rfl, hj⟩
  · intro h1
    rw [h1] at hj
    cases hp : p.slots[j]? with
    | none => rfl
    | some s2 => rw [hp] at hj; cases hj

theorem agree_raw {p q : Program} (h : SlotsAgreeExceptMark p q) (j : Nat) :
    slotRaw q j = slotRaw p j := by
  unfold slotRaw
  cases hq : q.slots[j]? with
  | none =>
    rw [(agree_some_iff h j).2 hq]
  | some s1 =>
    obtain ⟨s2, hp, he⟩ := (agree_some_iff h j).1 s1 hq
    rw [hp]
    simp [(eraseMark_fields he).1]

theorem agree_label {p q : Program} (h : SlotsAgreeExceptMark p q)
    (j : Nat) : slotLabel q j = slotLabel p j := by
  unfold slotLabel
  cases hq : q.slots[j]? with
  | none =>
    rw [(agree_some_iff h j).2 hq]
  | some s1 =>
    obtain ⟨s2, hp, he⟩ := (agree_some_iff h j).1 s1 hq
    rw [hp]
    simp [(eraseMark_fields he).2.2.1]

theorem agree_len {p q : Program} (h : SlotsAgreeExceptMark p q) :
    q.len = p.len := by
  by_contra hne
  rcases Nat.lt_or_ge q.len p.len with hlt | hge
  · have h1 : q.slots[q.len]? = none := by
      simp [Program.len, List.getElem?_eq_none_iff]
    have h2 : p.slots[q.len]? = some (p.slots.get ⟨q.len, hlt⟩) :=
      List.getElem?_eq_getElem hlt
    rw [(agree_some_iff h q.len).2 h1] at h2
    cases h2
  · have hlt : p.len < q.len := by omega
    have h1 : p.slots[p.len]? = none := by
      simp [Program.len, List.getElem?_eq_none_iff]
    have h2 : q.slots[p.len]? = some (q.slots.get ⟨p.len, hlt⟩) :=
      List.getElem?_eq_getElem hlt
    obtain ⟨s2, hp, -⟩ := (agree_some_iff h p.len).1 _ h2
    rw [h1] at hp
    cases hp

theorem agree_hasJump {p q : Program} (h : SlotsAgreeExceptMark p q)
    (j : Nat) : slotHasJump q j = slotHasJump p j := by
  unfold slotHasJump
  cases hq : q.slots[j]? with
  | none =>
    rw [(agree_some_iff h j).2 hq]
  | some s1 =>
    obtain ⟨s2, hp, he⟩ := (agree_some_iff h j).1 s1 hq
    rw [hp]
    simp only [(eraseMark_fields he).2.1]

theorem agree_hasRw {p q : Program} (h : SlotsAgreeExceptMark p q)
    (j : Nat) : slotHasRw q j = slotHasRw p j := by
  unfold slotHasRw
  cases hq : q.slots[j]? with
  | none =>
    rw [(agree_some_iff h j).2 hq]
  | some s1 =>
    obtain ⟨s2, hp, he⟩ := (agree_some_iff h j).1 s1 hq
    rw [hp]
    simp only [(eraseMark_fields he).2.1]

end Dis

namespace Dis

theorem getElem_none_of_len {p : Program} {addr : Nat} (h : p.len ≤ addr) :
    p.slots[addr]? = none := by
  simp [Program.len] at h
  simp [List.getElem?_eq_none_iff, h]

theorem lt_len_of_getElem {p : Program} {addr : Nat} {slot : Slot}
    (h : p.slots[addr]? = some slot) : addr < p.len := by
  by_contra hge
  rw [getElem_none_of_len (by omega)] at h
  cases h

theorem mark_eq_of_unmarked (p : Program) (addr : Nat) (mk : Mark)
    (slot : Slot) (hs : p.slots[addr]? = some slot) (hm : slot.mark = none) :
    p.mark addr mk =
      some ⟨listModify (fun s => { s with mark := some mk }) addr p.slots⟩ := by
  have hlen : ¬ p.len ≤ addr := by
    intro hle
    rw [getElem_none_of_len hle] at hs
    cases hs
  simp [Program.mark, hs, hm, hlen]

theorem mark_inv (p : Program) (addr : Nat) (mk : Mark) (q : Program)
    (h : p.mark addr mk = some q) :
    q = p ∨ (∃ slot, p.slots[addr]? = some slot ∧ slot.mark = none ∧
      q = ⟨listModify (fun s => { s with mark := some mk }) addr p.slots⟩) := by
  unfold Program.mark at h
  split at h
  · cases h
  · split at h
    · cases h
    · rename_i slot hs
      split at h
      · split at h
        · left
          cases h
          rfl
        · cases h
      · right
        cases h
        exact ⟨slot, hs, by assumption, rfl⟩

theorem extend_setMark (p : Program) (addr : Nat) (mk : Mark) (slot : Slot)
    (hs : p.slots[addr]? = some slot) (hm : slot.mark = none) :
    MarksExtend p
      ⟨listModify (fun s => { s with mark := some mk }) addr p.slots⟩ := by
  refine ⟨setMark_agree p addr (some mk), ?_⟩
  intro j m h
  by_cases he : addr = j
  · subst he
    unfold slotMark at h
    rw [hs] at h
    simp [hm] at h
  · rw [setMark_slotMark_ne p addr j _ he]
    exact h

theorem extend_of_mark (p : Program) (addr : Nat) (mk : Mark) (q : Program)
    (h : p.mark addr mk = some q) : MarksExtend p q := by
  rcases mark_inv p addr mk q h with he | ⟨slot, hs, hm, he⟩
  · subst he; exact extend_refl _
  · subst he; exact extend_setMark p addr mk slot hs hm

theorem slotOpcode_setMark_nonOpcode (p : Program) (addr : Nat) (mk : Mark)
    (slot : Slot) (hs : p.slots[addr]? = some slot) (hm : slot.mark = none)
    (hmk : ∀ o, mk ≠ .opcode o) (j : Nat) :
    slotOpcode
      (⟨listModify (fun s => { s with mark := some mk }) addr p.slots⟩ :
        Program) j = slotOpcode p j := by
  by_cases he : addr = j
  · subst he
    unfold slotOpcode
    rw [setMark_slotMark_self p addr (some mk) slot hs]
    unfold slotMark
    rw [hs]
    simp only [Option.some_bind]
    rw [hm]
    cases mk with
    | opcode o => exact absurd rfl (hmk o)
    | param pp => rfl
    | string => rfl
    | data => rfl
  · unfold slotOpcode
    rw [setMark_slotMark_ne p addr j _ he]

theorem slotOpcode_of_mark_nonOpcode (p : Program) (addr : Nat) (mk : Mark)
    (q : Program) (h : p.mark addr mk = some q)
    (hmk : ∀ o, mk ≠ .opcode o) (j : Nat) :
    slotOpcode q j = slotOpcode p j := by
  rcases mark_inv p addr mk q h with he | ⟨slot, hs, hm, he⟩
  · subst he; rfl
  · subst he; exact slotOpcode_setMark_nonOpcode p addr mk slot hs hm hmk j

theorem mark_param_inv (p : Program) (addr : Nat) (mode : Mode) (q : Program)
    (h : p.mark_param addr mode = some q) :
    ∃ slot, p.slots[addr]? = some slot ∧
      p.mark addr (.param (.number mode slot.raw)) = some q := by
  unfold Program.mark_param at h
  split at h
  · cases h
  · split at h
    · cases h
    · rename_i slot hs
      exact ⟨slot, hs, h⟩

theorem from_value_value (x : Int) (o : Opcode)
    (h : Opcode.from_value x = some o) : o.value = some x := by
  unfold Opcode.from_value at h
  split at h <;> cases h <;> rfl

theorem params_le3 (o : Opcode) (k : Nat) (h : o.params = some k) :
    k ≤ 3 := by
  cases o <;> simp [Opcode.params] at h <;> omega

theorem divs_getD_eq (i : Nat) (h : i ≤ 3) :
    divs.getD i 0 = 10 ^ (i + 2) := by
  interval_cases i <;> rfl

end Dis

namespace Dis

theorem checkParams_eq (p : Program) (instr : Int) (addr : Nat) :
    ∀ (l : List Nat) (modes : List (Nat × Mode)),
      checkParams p instr addr l = some modes →
      (modes.map (·.1) = l.map (fun i => addr + i + 1)) ∧
      (∀ i ∈ l, (∃ s, p.slots[addr + i + 1]? = some s ∧ s.mark = none) ∧
        ∃ m, Mode.from_value ((instr.tdiv (divs.getD i 0)).tmod 10) = some m ∧
          (addr + i + 1, m) ∈ modes) := by
  intro l
  induction l with
  | nil =>
    intro modes h
    cases h
    exact ⟨rfl, by simp⟩
  | cons i rest ih =>
    intro modes h
    simp only [checkParams] at h
    cases hs : p.slots[addr + i + 1]? with
    | none => rw [hs] at h; cases h
    | some s =>
      rw [hs] at h
      simp only [Option.bind_eq_bind, Option.some_bind] at h
      cases hsm : s.mark with
      | some m0 => simp [hsm] at h
      | none =>
        simp only [hsm, Option.isSome_none, Bool.false_eq_true, if_false] at h
        cases hv : Mode.from_value ((instr.tdiv (divs.getD i 0)).tmod 10) with
        | none => rw [hv] at h; cases h
        | some m =>
          rw [hv] at h
          simp only [Option.bind_eq_bind, Option.some_bind] at h
          cases hc : checkParams p instr addr rest with
          | none => rw [hc] at h; cases h
          | some ms =>
            rw [hc] at h
            simp only [Option.bind_eq_bind, Option.some_bind] at h
            cases h
            obtain ⟨ih1, ih2⟩ := ih ms hc
            refine ⟨by simp [ih1], ?_⟩
            intro i' hi'
            rcases List.mem_cons.1 hi' with he | hr
            · subst he
              exact ⟨⟨s, hs, hsm⟩, m, hv, by simp⟩
            · obtain ⟨hex, m', hv', hmem⟩ := ih2 i' hr
              exact ⟨hex, m', hv', by simp [hmem]⟩

theorem checkParams_isSome (p : Program) (instr : Int) (addr : Nat) :
    ∀ l : List Nat,
      (checkParams p instr addr l).isSome =
        l.all (fun i =>
          (match p.slots[addr + i + 1]? with
           | none => false
           | some s => s.mark.isNone) &&
          (Mode.from_value ((instr.tdiv (divs.getD i 0)).tmod 10)).isSome) := by
  intro l
  induction l with
  | nil => rfl
  | cons i rest ih =>
    rw [List.all_cons, ← ih]
    simp only [checkParams]
    cases hs : p.slots[addr + i + 1]? with
    | none => simp
    | some s =>
      simp only [Option.bind_eq_bind, Option.some_bind]
      cases hsm : s.mark with
      | some m0 => simp [hsm]
      | none =>
        simp only [hsm, Option.isSome_none, Bool.false_eq_true, if_false,
          Option.isNone_none, Bool.true_and]
        cases hv : Mode.from_value ((instr.tdiv (divs.getD i 0)).tmod 10) with
        | none => simp [hv]
        | some m =>
          simp only [hv, Option.bind_eq_bind, Option.some_bind, Option.isSome_some, Bool.true_and]
          cases hc : checkParams p instr addr rest with
          | none => simp [hc]
          | some ms => simp [hc, hsm]

end Dis

namespace Dis

theorem mark_param_eq_of_unmarked (p : Program) (addr : Nat) (mode : Mode)
    (slot : Slot) (hs : p.slots[addr]? = some slot) (hm : slot.mark = none) :
    p.mark_param addr mode =
      some ⟨listModify
        (fun s => { s with mark := some (.param (.number mode slot.raw)) })
        addr p.slots⟩ := by
  have hlen : ¬ p.len ≤ addr := by
    intro hle
    rw [getElem_none_of_len hle] at hs
    cases hs
  simp only [Program.mark_param, hlen, if_false, hs]
  exact mark_eq_of_unmarked p addr _ slot hs hm

theorem mark_opcode_eq_of_unmarked (p : Program) (addr : Nat) (op : Opcode)
    (slot : Slot) (hs : p.slots[addr]? = some slot) (hm : slot.mark = none)
    (hv : Opcode.from_value (slot.raw.tmod 100) = some op) :
    p.mark_opcode addr op =
      some ⟨listModify (fun s => { s with mark := some (.opcode op) })
        addr p.slots⟩ := by
  have hlen : ¬ p.len ≤ addr := by
    intro hle
    rw [getElem_none_of_len hle] at hs
    cases hs
  have hval := from_value_value _ _ hv
  simp [Program.mark_opcode, hlen, hs, hm, hval]

theorem markParamsList_eff :
    ∀ (modes : List (Nat × Mode)) (p q : Program),
      markParamsList p modes = some q →
      MarksExtend p q ∧
      (∀ j, j ∉ modes.map (·.1) → slotMark q j = slotMark p j) ∧
      (∀ j, slotOpcode q j = slotOpcode p j) := by
  intro modes
  induction modes with
  | nil =>
    intro p q h
    cases h
    exact ⟨extend_refl _, fun _ _ => rfl, fun _ => rfl⟩
  | cons am rest ih =>
    intro p q h
    obtain ⟨a, m⟩ := am
    simp only [markParamsList] at h
    cases hmp : p.mark_param a m with
    | none => rw [hmp] at h; cases h
    | some p1 =>
      rw [hmp] at h
      simp only [Option.some_bind] at h
      obtain ⟨slot, hs, hmk⟩ := mark_param_inv p a m p1 hmp
      obtain ⟨ih1, ih2, ih3⟩ := ih p1 q h
      refine ⟨extend_trans (extend_of_mark _ _ _ _ hmk) ih1, ?_, ?_⟩
      · intro j hj
        simp only [List.map_cons, List.mem_cons] at hj
        push_neg at hj
        rw [ih2 j (by simpa using hj.2)]
        rcases mark_inv _ _ _ _ hmk with he | ⟨slot', hs', hm', he⟩
        · rw [he]
        · subst he
          exact setMark_slotMark_ne p a j _ (Ne.symm hj.1)
      · intro j
        rw [ih3 j]
        exact slotOpcode_of_mark_nonOpcode p a _ p1 hmk (fun o h => by cases h) j

theorem markParamsList_marks :
    ∀ (modes : List (Nat × Mode)) (p q : Program),
      markParamsList p modes = some q →
      (modes.map (·.1)).Nodup →
      (∀ am ∈ modes, ∃ s, p.slots[am.1]? = some s ∧ s.mark = none) →
      ∀ am ∈ modes,
        slotMark q am.1 = some (.param (.number am.2 (slotRaw p am.1))) := by
  intro modes
  induction modes with
  | nil => intro p q h hnd hcond am hm; cases hm
  | cons bm rest ih =>
    intro p q h hnd hcond am ham
    obtain ⟨a, m⟩ := bm
    simp only [markParamsList] at h
    cases hmp : p.mark_param a m with
    | none => rw [hmp] at h; cases h
    | some p1 =>
      rw [hmp] at h
      simp only [Option.some_bind] at h
      obtain ⟨s0, hs0, hm0⟩ := hcond (a, m) (by simp)
      have hp1 : p1 = ⟨listModify
          (fun s => { s with mark := some (.param (.number m s0.raw)) })
          a p.slots⟩ := by
        rw [mark_param_eq_of_unmarked p a m s0 hs0 hm0] at hmp
        cases hmp
        rfl
      rcases List.mem_cons.1 ham with he | hr
      · rw [he]
        show slotMark q a = some (.param (.number m (slotRaw p a)))
        have h1 : slotMark p1 a =
            some (.param (.number m (slotRaw p a))) := by
          rw [hp1]
          rw [setMark_slotMark_self p a _ s0 hs0]
          unfold slotRaw
          rw [hs0]
          rfl
        obtain ⟨-, hun, -⟩ := markParamsList_eff rest p1 q h
        rw [hun a ?hnm]
        · exact h1
        case hnm =>
          simp only [List.map_cons, List.nodup_cons] at hnd
          exact hnd.1
      · have hcond' : ∀ cm ∈ rest, ∃ s, p1.slots[cm.1]? = some s ∧
            s.mark = none := by
          intro cm hcm
          obtain ⟨s, hs, hmk⟩ := hcond cm (by simp [hcm])
          refine ⟨s, ?_, hmk⟩
          rw [hp1]
          rw [setMark_slots_get_ne p a cm.1 _ ?hne]
          · exact hs
          case hne =>
            simp only [List.map_cons, List.nodup_cons] at hnd
            intro he
            exact hnd.1 (he ▸ List.mem_map_of_mem (·.1) hcm)
        have hraw : slotRaw p1 am.1 = slotRaw p am.1 := by
          rw [hp1]
          exact agree_raw (setMark_agree p a _) am.1
        rw [← hraw]
        refine ih p1 q h ?_ hcond' am hr
        simp only [List.map_cons, List.nodup_cons] at hnd
        exact hnd.2

theorem markParamsList_some :
    ∀ (modes : List (Nat × Mode)) (p : Program),
      (modes.map (·.1)).Nodup →
      (∀ am ∈ modes, ∃ s, p.slots[am.1]? = some s ∧ s.mark = none) →
      (markParamsList p modes).isSome := by
  intro modes
  induction modes with
  | nil => intro p _ _; rfl
  | cons bm rest ih =>
    intro p hnd hcond
    obtain ⟨a, m⟩ := bm
    obtain ⟨s0, hs0, hm0⟩ := hcond (a, m) (by simp)
    simp only [markParamsList]
    rw [mark_param_eq_of_unmarked p a m s0 hs0 hm0]
    simp only [Option.some_bind]
    simp only [List.map_cons, List.nodup_cons] at hnd
    apply ih _ hnd.2
    intro cm hcm
    obtain ⟨s, hs, hmk⟩ := hcond cm (by simp [hcm])
    refine ⟨s, ?_, hmk⟩
    rw [setMark_slots_get_ne p a cm.1 _ ?hne]
    · exact hs
    case hne =>
      intro he
      exact hnd.1 (he ▸ List.mem_map_of_mem (·.1) hcm)

end Dis

namespace Dis

theorem all_congr_list (l : List Nat) (f g : Nat → Bool)
    (h : ∀ i ∈ l, f i = g i) : l.all f = l.all g := by
  induction l with
  | nil => rfl
  | cons a t ih =>
    simp only [List.all_cons]
    rw [h a (by simp), ih (fun i hi => h i (by simp [hi]))]

theorem try_mark_instr_inv (p : Program) (addr : Nat) (q : Program) (n : Nat)
    (h : try_mark_instr p addr = some (q, n)) :
    ∃ slot op k modes p1,
      p.slots[addr]? = some slot ∧ slot.mark = none ∧
      Opcode.from_value (slot.raw.tmod 100) = some op ∧ op.params = some k ∧
      ¬ slot.raw.tdiv (divs.getD k 0) > 0 ∧
      checkParams p slot.raw addr (List.range k) = some modes ∧
      p.mark_opcode addr op = some p1 ∧
      markParamsList p1 modes = some q ∧ n = k + 1 := by
  simp only [try_mark_instr] at h
  cases hs : p.slots[addr]? with
  | none => rw [hs] at h; cases h
  | some slot =>
    rw [hs] at h
    simp only [Option.bind_eq_bind, Option.some_bind] at h
    cases hsm : slot.mark with
    | some m0 => simp [hsm] at h
    | none =>
      simp only [hsm, Option.isSome_none, Bool.false_eq_true, if_false] at h
      cases ho : Opcode.from_value (slot.raw.tmod 100) with
      | none => rw [ho] at h; cases h
      | some op =>
        rw [ho] at h
        simp only [Option.some_bind] at h
        cases hk : op.params with
        | none => rw [hk] at h; cases h
        | some k =>
          rw [hk] at h
          simp only [Option.some_bind] at h
          by_cases hg : slot.raw.tdiv (divs.getD k 0) > 0
          · rw [if_pos hg] at h; cases h
          · simp only [hg, if_false] at h
            cases hc : checkParams p slot.raw addr (List.range k) with
            | none => rw [hc] at h; cases h
            | some modes =>
              rw [hc] at h
              simp only [Option.some_bind] at h
              cases hmo : p.mark_opcode addr op with
              | none => rw [hmo] at h; cases h
              | some p1 =>
                rw [hmo] at h
                simp only [Option.some_bind] at h
                cases hml : markParamsList p1 modes with
                | none => rw [hml] at h; cases h
                | some p2 =>
                  rw [hml] at h
                  simp only [Option.some_bind, Option.pure_def,
                    Option.some.injEq, Prod.mk.injEq] at h
                  exact ⟨slot, op, k, modes, p1, rfl, hsm, ho, hk, hg, hc, hmo,
                    by rw [hml, h.1], h.2.symm⟩

theorem modes_fsts_nodup (p : Program) (instr : Int) (addr : Nat) (k : Nat)
    (modes : List (Nat × Mode))
    (hc : checkParams p instr addr (List.range k) = some modes) :
    (modes.map (·.1)).Nodup := by
  rw [(checkParams_eq p instr addr (List.range k) modes hc).1]
  refine List.Nodup.map ?_ (List.nodup_range k)
  intro a b hab
  simp only at hab
  omega

theorem modes_conds (p : Program) (instr : Int) (addr : Nat) (k : Nat)
    (modes : List (Nat × Mode))
    (hc : checkParams p instr addr (List.range k) = some modes) :
    ∀ am ∈ modes, ∃ s, p.slots[am.1]? = some s ∧ s.mark = none := by
  intro am ham
  have hf := (checkParams_eq p instr addr (List.range k) modes hc).1
  have : am.1 ∈ modes.map (·.1) := List.mem_map_of_mem (·.1) ham
  rw [hf] at this
  simp only [List.mem_map, List.mem_range] at this
  obtain ⟨i, hik, hi⟩ := this
  obtain ⟨⟨s, hs, hm⟩, -⟩ :=
    (checkParams_eq p instr addr (List.range k) modes hc).2 i
      (List.mem_range.2 hik)
  exact ⟨s, by rw [hi] at hs; exact hs, hm⟩

theorem modes_conds_p1 (p : Program) (instr : Int) (addr : Nat) (k : Nat)
    (modes : List (Nat × Mode)) (mo : Option Mark)
    (hc : checkParams p instr addr (List.range k) = some modes) :
    ∀ am ∈ modes,
      ∃ s, (Program.mk (listModify (fun s => { s with mark := mo }) addr
        p.slots)).slots[am.1]? = some s ∧ s.mark = none := by
  intro am ham
  obtain ⟨s, hs, hm⟩ := modes_conds p instr addr k modes hc am ham
  refine ⟨s, ?_, hm⟩
  rw [setMark_slots_get_ne p addr am.1 mo ?hne]
  · exact hs
  case hne =>
    have hf := (checkParams_eq p instr addr (List.range k) modes hc).1
    have : am.1 ∈ modes.map (·.1) := List.mem_map_of_mem (·.1) ham
    rw [hf] at this
    simp only [List.mem_map, List.mem_range] at this
    omega

theorem try_isSome_eq_candidateOK (p : Program) (addr : Nat) :
    (try_mark_instr p addr).isSome = candidateOK p addr := by
  simp only [try_mark_instr, candidateOK]
  cases hs : p.slots[addr]? with
  | none => simp
  | some slot =>
    simp only [Option.bind_eq_bind, Option.some_bind]
    cases hsm : slot.mark with
    | some m0 => simp [hsm]
    | none =>
      simp only [hsm, Option.isSome_none, Bool.false_eq_true, if_false,
        Option.isNone_none, Bool.true_and]
      cases ho : Opcode.from_value (slot.raw.tmod 100) with
      | none => simp
      | some op =>
        simp only [Option.some_bind]
        cases hk : op.params with
        | none => simp
        | some k =>
          simp only [Option.some_bind]
          have hk3 := params_le3 op k hk
          have hdv : divs.getD k 0 = 10 ^ (k + 2) := divs_getD_eq k hk3
          by_cases hg : slot.raw.tdiv (divs.getD k 0) > 0
          · have hle : ¬ slot.raw.tdiv (10 ^ (k + 2)) ≤ 0 := by
              rw [← hdv]; omega
            simp [hg, hle]
            intro h1
            exact absurd h1 (not_le.mpr (by simpa [List.getD] using hg))
          · have hle : slot.raw.tdiv (10 ^ (k + 2)) ≤ 0 := by
              rw [← hdv]; omega
            simp only [hg, if_false, hle, decide_eq_true_eq,
              decide_eq_true (by omega : slot.raw.tdiv (10 ^ (k + 2)) ≤ 0),
              Bool.true_and]
            have hall := checkParams_isSome p slot.raw addr (List.range k)
            have hcong : (List.range k).all
                (fun i =>
                  (match p.slots[addr + i + 1]? with
                   | none => false
                   | some s => s.mark.isNone) &&
                  (Mode.from_value
                    ((slot.raw.tdiv (divs.getD i 0)).tmod 10)).isSome) =
                (List.range k).all
                (fun i =>
                  match p.slots[addr + i + 1]? with
                  | none => false
                  | some s =>
                    s.mark.isNone &&
                      (Mode.from_value
                        ((slot.raw.tdiv (10 ^ (i + 2))).tmod 10)).isSome) := by
              apply all_congr_list
              intro i hi
              have hi3 : i ≤ 3 := by
                simp only [List.mem_range] at hi
                omega
              rw [divs_getD_eq i hi3]
              cases p.slots[addr + i + 1]? <;> simp
            rw [← hcong, ← hall]
            cases hc : checkParams p slot.raw addr (List.range k) with
            | none => simp [hc]
            | some modes =>
              rw [mark_opcode_eq_of_unmarked p addr op slot hs hsm ho]
              simp only [Option.some_bind, Option.isSome_some]
              obtain ⟨q2, hq2⟩ := Option.isSome_iff_exists.1
                (markParamsList_some modes _
                  (modes_fsts_nodup p slot.raw addr k modes hc)
                  (modes_conds_p1 p slot.raw addr k modes _ hc))
              rw [hq2]
              rfl

end Dis

namespace Dis

theorem try_mark_instr_eff (p : Program) (addr : Nat) (q : Program) (n : Nat)
    (h : try_mark_instr p addr = some (q, n)) :
    MarksExtend p q ∧
    (∀ j, j ≠ addr → slotOpcode q j = slotOpcode p j) ∧
    ∃ op k,
      Opcode.from_value ((slotRaw p addr).tmod 100) = some op ∧
      op.params = some k ∧ n = k + 1 ∧
      slotMark p addr = none ∧
      slotMark q addr = some (.opcode op) ∧
      (∀ i, i < k →
        ∃ m, Mode.from_value (((slotRaw p addr).tdiv (10 ^ (i + 2))).tmod 10)
            = some m ∧
          slotMark q (addr + i + 1) =
            some (.param (.number m (slotRaw p (addr + i + 1))))) ∧
      (∀ j, j < addr ∨ addr + k < j → slotMark q j = slotMark p j) := by
  obtain ⟨slot, op, k, modes, p1, hs, hsm, ho, hk, hg, hc, hmo, hml, hn⟩ :=
    try_mark_instr_inv p addr q n h
  have hraw : slotRaw p addr = slot.raw := by
    unfold slotRaw; rw [hs]; rfl
  have hk3 : k ≤ 3 := params_le3 op k hk
  have hp1 : p1 = ⟨listModify (fun s => { s with mark := some (.opcode op) })
      addr p.slots⟩ := by
    rw [mark_opcode_eq_of_unmarked p addr op slot hs hsm ho] at hmo
    cases hmo; rfl
  have hext1 : MarksExtend p p1 := by
    rw [hp1]; exact extend_setMark p addr (.opcode op) slot hs hsm
  obtain ⟨hext2, hunch2, hopc2⟩ := markParamsList_eff modes p1 q hml
  have hfsts := (checkParams_eq p slot.raw addr (List.range k) modes hc).1
  have hcp := (checkParams_eq p slot.raw addr (List.range k) modes hc).2
  have haddr_not : addr ∉ modes.map (·.1) := by
    rw [hfsts]; simp only [List.mem_map, List.mem_range]; omega
  refine ⟨extend_trans hext1 hext2, ?_, op, k, ?_, hk, hn, ?_, ?_, ?_, ?_⟩
  · intro j hj
    rw [hopc2 j, hp1]
    unfold slotOpcode
    rw [setMark_slotMark_ne p addr j _ (fun he => hj he.symm)]
  · rw [hraw]; exact ho
  · unfold slotMark; rw [hs]; simp [hsm]
  · rw [hunch2 addr haddr_not, hp1]
    exact setMark_slotMark_self p addr _ slot hs
  · intro i hi
    obtain ⟨⟨s, hsi, hmi⟩, m, hm, hmem⟩ := hcp i (List.mem_range.2 hi)
    have hmarks := markParamsList_marks modes p1 q hml
      (modes_fsts_nodup p slot.raw addr k modes hc)
      (by rw [hp1]
          exact modes_conds_p1 p slot.raw addr k modes _ hc)
      (addr + i + 1, m) hmem
    have hr : slotRaw p1 (addr + i + 1) = slotRaw p (addr + i + 1) := by
      rw [hp1]
      unfold slotRaw
      rw [setMark_slots_get_ne p addr (addr + i + 1) _ (by omega)]
    refine ⟨m, ?_, ?_⟩
    · rw [hraw, ← divs_getD_eq i (by omega)]
      exact hm
    · rw [hmarks, hr]
  · intro j hj
    have hj_not : j ∉ modes.map (·.1) := by
      rw [hfsts]; simp only [List.mem_map, List.mem_range]; omega
    rw [hunch2 j hj_not, hp1, setMark_slotMark_ne p addr j _ (by omega)]

end Dis

namespace Dis

theorem agree_of_mark (p : Program) (addr : Nat) (mk : Mark) (q : Program)
    (h : p.mark addr mk = some q) : SlotsAgreeExceptMark p q := by
  rcases mark_inv p addr mk q h with he | ⟨slot, hs, hm, he⟩
  · subst he; exact agree_refl _
  · subst he; exact setMark_agree p addr (some mk)

theorem markStringList_inv :
    ∀ (l : List Nat) (p q : Program), markStringList p l = some q →
      SlotsAgreeExceptMark p q ∧ ∀ j, slotOpcode q j = slotOpcode p j := by
  intro l
  induction l with
  | nil =>
    intro p q h
    cases h
    exact ⟨agree_refl _, fun _ => rfl⟩
  | cons a rest ih =>
    intro p q h
    simp only [markStringList] at h
    cases hm : p.mark a .string with
    | none => rw [hm] at h; cases h
    | some p1 =>
      rw [hm] at h
      obtain ⟨ih1, ih2⟩ := ih p1 q h
      refine ⟨agree_trans (agree_of_mark p a .string p1 hm) ih1, fun j => ?_⟩
      rw [ih2 j,
        slotOpcode_of_mark_nonOpcode p a .string p1 hm (fun o => by simp) j]

theorem try_mark_string_def (p : Program) (addr : Nat) :
    try_mark_string p addr =
      (if (((List.range' addr (p.len - addr)).takeWhile
          (fun a => isCharAt p a)).length < 2) then none
       else (markStringList p ((List.range' addr (p.len - addr)).takeWhile
          (fun a => isCharAt p a))).map
          (fun p' => (p', ((List.range' addr (p.len - addr)).takeWhile
            (fun a => isCharAt p a)).length))) := rfl

theorem try_mark_string_inv (p : Program) (addr : Nat) (q : Program)
    (n : Nat) (h : try_mark_string p addr = some (q, n)) :
    SlotsAgreeExceptMark p q ∧ ∀ j, slotOpcode q j = slotOpcode p j := by
  rw [try_mark_string_def] at h
  split at h
  · cases h
  · cases hms : markStringList p
        ((List.range' addr (p.len - addr)).takeWhile (fun a => isCharAt p a))
      with
    | none => rw [hms] at h; cases h
    | some p1 =>
      rw [hms] at h
      simp only [Option.map_some', Option.some.injEq, Prod.mk.injEq] at h
      rw [← h.1]
      exact markStringList_inv _ p p1 hms

theorem phase1Step_inv (p : Program) (i : Nat) (q : Program)
    (h : phase1Step (some p) i = some q) :
    SlotsAgreeExceptMark p q ∧ ∀ j, slotOpcode q j = slotOpcode p j := by
  simp only [phase1Step, Option.some_bind] at h
  cases hts : try_mark_string p i with
  | some pr =>
    rw [hts] at h
    cases h
    exact try_mark_string_inv p i pr.1 pr.2 (by rw [hts])
  | none =>
    rw [hts] at h
    by_cases hu : slotUnmarked p i
    · rw [if_pos hu] at h
      refine ⟨agree_of_mark p i .data q h, fun j => ?_⟩
      exact slotOpcode_of_mark_nonOpcode p i .data q h (fun o => by simp) j
    · rw [if_neg hu] at h
      cases h
      exact ⟨agree_refl _, fun _ => rfl⟩

theorem phase1_fold_none (l : List Nat) :
    l.foldl phase1Step none = none := by
  induction l with
  | nil => rfl
  | cons a rest ih => simpa [phase1Step] using ih

theorem phase1_fold_inv :
    ∀ (l : List Nat) (p q : Program), l.foldl phase1Step (some p) = some q →
      SlotsAgreeExceptMark p q ∧ ∀ j, slotOpcode q j = slotOpcode p j := by
  intro l
  induction l with
  | nil =>
    intro p q h
    cases h
    exact ⟨agree_refl _, fun _ => rfl⟩
  | cons a rest ih =>
    intro p q h
    rw [List.foldl_cons] at h
    cases hstep : phase1Step (some p) a with
    | none => rw [hstep, phase1_fold_none] at h; cases h
    | some p1 =>
      rw [hstep] at h
      obtain ⟨ih1, ih2⟩ := ih p1 q h
      obtain ⟨h1, h2⟩ := phase1Step_inv p a p1 hstep
      exact ⟨agree_trans h1 ih1, fun j => by rw [ih2 j, h2 j]⟩

theorem phase2Step_opcode_ne (p : Program) (i j : Nat) (hj : j ≠ i) :
    slotOpcode (phase2Step p i) j = slotOpcode p j := by
  unfold phase2Step
  cases ht : try_mark_instr p i with
  | none => rfl
  | some pr =>
    exact (try_mark_instr_eff p i pr.1 pr.2 (by rw [ht])).2.1 j hj

theorem phase2_fold_sound :
    ∀ (l : List Nat) (p : Program) (j : Nat),
      slotOpcode (l.foldl phase2Step p) j ≠ slotOpcode p j → j ∈ l := by
  intro l
  induction l with
  | nil =>
    intro p j h
    exact absurd rfl h
  | cons a rest ih =>
    intro p j h
    rw [List.foldl_cons] at h
    by_cases he : j = a
    · exact he ▸ List.mem_cons_self a rest
    · refine List.mem_cons_of_mem a (ih (phase2Step p a) j ?_)
      intro hc
      rw [hc, phase2Step_opcode_ne p a j he] at h
      exact absurd rfl h

theorem statically_mark_def (p : Program) :
    statically_mark p =
      match ((List.range p.len).filter
          (fun i => slotUnmarked p i && slotHasRw p i)).foldl
          phase1Step (some p) with
      | none => none
      | some p1 =>
        some (((List.range p1.len).filter
          (fun i => slotUnmarked p1 i && slotHasJump p1 i)).foldl
          phase2Step p1) := rfl

theorem statically_mark_opcode_sound (p r : Program)
    (h : statically_mark p = some r) (j : Nat)
    (hne : slotOpcode r j ≠ slotOpcode p j) : slotHasJump p j = true := by
  rw [statically_mark_def] at h
  cases hf1 : ((List.range p.len).filter
      (fun i => slotUnmarked p i && slotHasRw p i)).foldl
      phase1Step (some p) with
  | none => rw [hf1] at h; cases h
  | some p1 =>
    rw [hf1] at h
    simp only [Option.some.injEq] at h
    obtain ⟨hagree, hopc⟩ := phase1_fold_inv _ p p1 hf1
    have hne1 : slotOpcode r j ≠ slotOpcode p1 j := by
      rw [hopc j]; exact hne
    have hmem : j ∈ (List.range p1.len).filter
        (fun i => slotUnmarked p1 i && slotHasJump p1 i) := by
      refine phase2_fold_sound _ p1 j ?_
      rw [h]
      exact hne1
    have hjump : slotHasJump p1 j = true := by
      have := (List.mem_filter.1 hmem).2
      simp only [Bool.and_eq_true] at this
      exact this.2
    rw [agree_hasJump hagree j] at hjump
    exact hjump

end Dis

section ClaimsDisStatic
open Dis

/-- C8 (amended): the static marker's instruction pass attempts only the
slots that are unmarked and carry a Jump-purpose mention, not every
unmarked slot; an attempt at `addr` succeeds exactly when `raw mod 100` is
a known opcode of arity `k`, `raw / 10^(k+2) <= 0` (the claim's bound
`10^(k+1)` would forbid a mode digit on the last parameter), and each of
the next `k` slots exists, is unmarked and holds a valid mode digit; on
success the opcode slot and its `k` parameter slots are marked and no
other slot's mark changes; consequently `statically_mark` only ever
creates opcode marks at Jump-mentioned slots. -/
theorem c8_static_marker_attempts :
    (∀ (p : Program) (addr : Nat),
      (try_mark_instr p addr).isSome = candidateOK p addr) ∧
    (∀ (p : Program) (addr : Nat) (q : Program) (n : Nat),
      try_mark_instr p addr = some (q, n) →
      MarksExtend p q ∧
      ∃ op k, Opcode.from_value ((slotRaw p addr).tmod 100) = some op ∧
        op.params = some k ∧ n = k + 1 ∧
        slotMark p addr = none ∧
        slotMark q addr = some (.opcode op) ∧
        (∀ i, i < k → ∃ m,
          Mode.from_value (((slotRaw p addr).tdiv (10 ^ (i + 2))).tmod 10)
            = some m ∧
          slotMark q (addr + i + 1) =
            some (.param (.number m (slotRaw p (addr + i + 1))))) ∧
        (∀ j, j < addr ∨ addr + k < j → slotMark q j = slotMark p j)) ∧
    (∀ (p r : Program), statically_mark p = some r →
      ∀ j, slotOpcode r j ≠ slotOpcode p j → slotHasJump p j = true) := by
  refine ⟨try_isSome_eq_candidateOK, ?_, statically_mark_opcode_sound⟩
  intro p addr q n h
  obtain ⟨h1, _, h3⟩ := try_mark_instr_eff p addr q n h
  exact ⟨h1, h3⟩

/-- Concrete instantiation of `c8_static_marker_attempts`: the ADD
candidate `[1101, 2, 3, 5, 99]` at address 0 is accepted and marked, and
the slot the static marker marks as `JumpNonZero` in
`[1105, 1, 4, 99]`-with-a-jump-mention indeed carries a Jump mention. -/
theorem c8_static_marker_attempts_witness :
    ((Dis.try_mark_instr (Dis.Program.new [1101, 2, 3, 5, 99]) 0).isSome
        = Dis.candidateOK (Dis.Program.new [1101, 2, 3, 5, 99]) 0) ∧
    Dis.MarksExtend (Dis.Program.new [1101, 2, 3, 5, 99])
      ⟨[{ raw := 1101, mark := some (.opcode .add) },
        { raw := 2, mark := some (.param (.number .immediate 2)) },
        { raw := 3, mark := some (.param (.number .immediate 3)) },
        { raw := 5, mark := some (.param (.number .positional 5)) },
        { raw := 99 }]⟩ ∧
    Dis.slotHasJump
      ⟨[{ raw := 1105, mentions := [{ purpose := .jump, referrer := 0 }] },
        { raw := 1 }, { raw := 4 }, { raw := 99 }]⟩ 0 = true := by
  refine ⟨c8_static_marker_attempts.1 (Dis.Program.new [1101, 2, 3, 5, 99]) 0,
    (c8_static_marker_attempts.2.1 (Dis.Program.new [1101, 2, 3, 5, 99]) 0
      ⟨[{ raw := 1101, mark := some (.opcode .add) },
        { raw := 2, mark := some (.param (.number .immediate 2)) },
        { raw := 3, mark := some (.param (.number .immediate 3)) },
        { raw := 5, mark := some (.param (.number .positional 5)) },
        { raw := 99 }]⟩ 4 (by decide)).1,
    c8_static_marker_attempts.2.2
      ⟨[{ raw := 1105, mentions := [{ purpose := .jump, referrer := 0 }] },
        { raw := 1 }, { raw := 4 }, { raw := 99 }]⟩
      ⟨[{ raw := 1105, mark := some (.opcode .jumpNonZero),
          mentions := [{ purpose := .jump, referrer := 0 }] },
        { raw := 1, mark := some (.param (.number .immediate 1)) },
        { raw := 4, mark := some (.param (.number .immediate 4)) },
        { raw := 99 }]⟩
      (by decide) 0 (by decide)⟩

/-- Counterexamples to claim C8 as stated: `[21001, 1, 2, 3]` has
`21001 / 10^(3+1) = 2 != 0` yet its ADD candidate at address 0 is
accepted (the code divides by `10^(k+2)`, not the claim's `10^(k+1)`);
and in `[1, 0, 0, 0]` the slot at 0 is unmarked and satisfies the
candidates' condition, yet `statically_mark` leaves the program untouched
because no slot has a Jump-purpose mention — not every unmarked slot is
attempted. -/
theorem c8_counterexample :
    ((21001 : Int).tdiv (10 ^ (3 + 1)) > 0 ∧
      (Dis.try_mark_instr (Dis.Program.new [21001, 1, 2, 3]) 0).isSome
        = true) ∧
    ((Dis.try_mark_instr (Dis.Program.new [1, 0, 0, 0]) 0).isSome = true ∧
      Dis.statically_mark (Dis.Program.new [1, 0, 0, 0]) =
        some (Dis.Program.new [1, 0, 0, 0])) := by
  exact ⟨⟨by decide, by decide⟩, by decide, by decide⟩

end ClaimsDisStatic

namespace Dis

theorem slotLabel_modify_pres (p : Program) (f : Slot → Slot)
    (hf : ∀ s, (f s).label = s.label) (i j : Nat) :
    slotLabel (⟨listModify f i p.slots⟩ : Program) j = slotLabel p j := by
  unfold slotLabel
  by_cases he : i = j
  · subst he
    show ((listModify f i p.slots)[i]?).bind _ = _
    rw [listModify_get_self]
    cases p.slots[i]? with
    | none => rfl
    | some s => simp [hf s]
  · show ((listModify f i p.slots)[j]?).bind _ = _
    rw [listModify_get_ne _ _ _ _ he]

theorem label_param_label_pres (p : Program) (i : Nat) (l : Label)
    (off : Int) (q : Program) (h : label_param p i l off = some q) (j : Nat) :
    slotLabel q j = slotLabel p j := by
  unfold label_param at h
  split at h
  · cases h
  · split at h
    · cases h
      apply slotLabel_modify_pres
      intro s
      rfl
    · cases h

theorem labelParamsList_label_pres :
    ∀ (idx : List (LabelType × Nat)) (p q : Program) (l : Label) (off : Int),
      labelParamsList p idx l off = some q →
      ∀ j, slotLabel q j = slotLabel p j := by
  intro idx
  induction idx with
  | nil =>
    intro p q l off h j
    cases h
    rfl
  | cons ti rest ih =>
    intro p q l off h j
    obtain ⟨ty, i⟩ := ti
    simp only [labelParamsList] at h
    cases hlp : label_param p i l off with
    | none => rw [hlp] at h; cases h
    | some p1 =>
      rw [hlp] at h
      rw [ih p1 q l off h j, label_param_label_pres p i l off p1 hlp j]

theorem set_label_type_fn_label_pres (p : Program) (addr : Nat)
    (idx : List (LabelType × Nat)) (j : Nat) :
    slotLabel (set_label_type_fn p addr idx) j = slotLabel p j := by
  unfold set_label_type_fn
  split
  · split
    · rfl
    · split
      · rfl
      · apply slotLabel_modify_pres
        intro s
        rfl
  · rfl

theorem get_or_set_label_label_mono (p : Program) (addr : Nat)
    (labs : List Label) (l1 : Label) (q : Program) (labs' : List Label)
    (h : get_or_set_label p addr labs = some (l1, q, labs')) (j : Nat)
    (l : Label) (hl : slotLabel p j = some l) : slotLabel q j = some l := by
  unfold get_or_set_label at h
  split at h
  · cases h
  · rename_i slot hs
    split at h
    · cases h
      exact hl
    · rename_i hlab
      split at h
      · cases h
      · cases h
        by_cases he : addr = j
        · subst he
          unfold slotLabel at hl
          rw [hs] at hl
          simp only [Option.some_bind] at hl
          rw [hlab] at hl
          cases hl
        · unfold slotLabel
          show ((listModify _ addr p.slots)[j]?).bind _ = _
          rw [listModify_get_ne _ _ _ _ he]
          exact hl

theorem procTarget_label_mono (p : Program) (labs : List Label)
    (e : Nat × List (LabelType × Nat)) (q : Program) (labs' : List Label)
    (h : procTarget (some (p, labs)) e = some (q, labs')) (j : Nat)
    (l : Label) (hl : slotLabel p j = some l) : slotLabel q j = some l := by
  simp only [procTarget, Option.some_bind, Option.bind_eq_bind] at h
  cases hm : (p.slots[e.1]?).bind (fun s => s.mark) with
  | none =>
    rw [hm] at h
    cases hg : get_or_set_label p e.1 labs with
    | none => rw [hg] at h; cases h
    | some r =>
      rw [hg] at h
      simp only [Option.some_bind] at h
      obtain ⟨lg, pg, labsg⟩ := r
      cases hll : labelParamsList (set_label_type_fn pg e.1 e.2) e.2 lg 0 with
      | none => rw [hll] at h; cases h
      | some p2 =>
        rw [hll] at h
        simp only [Option.some_bind, Option.pure_def, Option.some.injEq,
          Prod.mk.injEq] at h
        rw [← h.1]
        rw [labelParamsList_label_pres _ _ p2 _ _ hll j,
          set_label_type_fn_label_pres pg e.1 e.2 j]
        exact get_or_set_label_label_mono p e.1 labs lg pg labsg hg j l hl
  | some mk =>
    rw [hm] at h
    cases mk with
    | string => cases h
    | data =>
      cases hg : get_or_set_label p e.1 labs with
      | none => rw [hg] at h; cases h
      | some r =>
        rw [hg] at h
        simp only [Option.some_bind] at h
        obtain ⟨lg, pg, labsg⟩ := r
        cases hll : labelParamsList (set_label_type_fn pg e.1 e.2) e.2 lg 0
          with
        | none => rw [hll] at h; cases h
        | some p2 =>
          rw [hll] at h
          simp only [Option.some_bind, Option.pure_def, Option.some.injEq,
            Prod.mk.injEq] at h
          rw [← h.1]
          rw [labelParamsList_label_pres _ _ p2 _ _ hll j,
            set_label_type_fn_label_pres pg e.1 e.2 j]
          exact get_or_set_label_label_mono p e.1 labs lg pg labsg hg j l hl
    | opcode o =>
      cases hg : get_or_set_label p e.1 labs with
      | none => rw [hg] at h; cases h
      | some r =>
        rw [hg] at h
        simp only [Option.some_bind] at h
        obtain ⟨lg, pg, labsg⟩ := r
        cases hll : labelParamsList (set_label_type_fn pg e.1 e.2) e.2 lg 0
          with
        | none => rw [hll] at h; cases h
        | some p2 =>
          rw [hll] at h
          simp only [Option.some_bind, Option.pure_def, Option.some.injEq,
            Prod.mk.injEq] at h
          rw [← h.1]
          rw [labelParamsList_label_pres _ _ p2 _ _ hll j,
            set_label_type_fn_label_pres pg e.1 e.2 j]
          exact get_or_set_label_label_mono p e.1 labs lg pg labsg hg j l hl
    | param pp =>
      cases hia : instr_addr p e.1 with
      | none => rw [hia] at h; cases h
      | some this_op =>
        rw [hia] at h
        simp only [Option.some_bind] at h
        by_cases hc : e.2.all
            (fun ti => decide (instr_addr p ti.2 = instr_addr p this_op))
        · rw [if_pos hc] at h
          cases hll : labelParamsList (set_label_type_fn p e.1 e.2) e.2
              Label.instructionPointer ((e.1 - this_op : Nat) : Int) with
          | none => rw [hll] at h; cases h
          | some p2 =>
            rw [hll] at h
            simp only [Option.some_bind, Option.pure_def, Option.some.injEq,
              Prod.mk.injEq] at h
            rw [← h.1]
            rw [labelParamsList_label_pres _ _ p2 _ _ hll j,
              set_label_type_fn_label_pres p e.1 e.2 j]
            exact hl
        · rw [if_neg hc] at h
          cases hg : get_or_set_label p this_op labs with
          | none => rw [hg] at h; cases h
          | some r =>
            rw [hg] at h
            simp only [Option.some_bind] at h
            obtain ⟨lg, pg, labsg⟩ := r
            cases hll : labelParamsList (set_label_type_fn pg e.1 e.2) e.2 lg
                ((e.1 - this_op : Nat) : Int) with
            | none => rw [hll] at h; cases h
            | some p2 =>
              rw [hll] at h
              simp only [Option.some_bind, Option.pure_def, Option.some.injEq,
                Prod.mk.injEq] at h
              rw [← h.1]
              rw [labelParamsList_label_pres _ _ p2 _ _ hll j,
                set_label_type_fn_label_pres pg e.1 e.2 j]
              exact get_or_set_label_label_mono p this_op labs lg pg labsg hg
                j l hl

theorem procTarget_fold_none (es : List (Nat × List (LabelType × Nat))) :
    es.foldl procTarget none = none := by
  induction es with
  | nil => rfl
  | cons e rest ih => simpa [procTarget] using ih

theorem assign_fold_label_mono :
    ∀ (es : List (Nat × List (LabelType × Nat))) (p : Program)
      (labs : List Label) (q : Program) (labs' : List Label),
      es.foldl procTarget (some (p, labs)) = some (q, labs') →
      ∀ j l, slotLabel p j = some l → slotLabel q j = some l := by
  intro es
  induction es with
  | nil =>
    intro p labs q labs' h j l hl
    cases h
    exact hl
  | cons e rest ih =>
    intro p labs q labs' h j l hl
    rw [List.foldl_cons] at h
    cases hstep : procTarget (some (p, labs)) e with
    | none => rw [hstep, procTarget_fold_none] at h; cases h
    | some pl1 =>
      rw [hstep] at h
      obtain ⟨p1, labs1⟩ := pl1
      exact ih p1 labs1 q labs' h j l
        (procTarget_label_mono p labs e p1 labs1 hstep j l hl)

theorem assign_def (p0 : Program) (labels0 : List Label) :
    assign p0 labels0 =
      (((targets p0).map (fun a => (a, groupFor p0 a))).foldl procTarget
        (some (p0, labels0))).map (·.1) := rfl

theorem assign_label_mono (p q : Program) (labs : List Label)
    (h : assign p labs = some q) :
    ∀ j l, slotLabel p j = some l → slotLabel q j = some l := by
  rw [assign_def] at h
  cases hf : ((targets p).map (fun a => (a, groupFor p a))).foldl procTarget
      (some (p, labs)) with
  | none => rw [hf] at h; cases h
  | some pl =>
    rw [hf] at h
    simp only [Option.map_some', Option.some.injEq] at h
    obtain ⟨p1, labs1⟩ := pl
    intro j l hl
    rw [← h]
    exact assign_fold_label_mono _ p labs p1 labs1 hf j l hl

theorem targets_nodup (p : Program) : (targets p).Nodup :=
  (List.nodup_range p.len).filter _

end Dis

section ClaimsDisLabels
open Dis

set_option maxRecDepth 10000 in
/-- C9 (amended): the fresh-label sequence the code draws from is
`a..k, m..y` (the Rust range `'a'..'z'` excludes `'z'`, and `'l'` is
filtered out — 24 single letters, not the claim's 25 ending in `z`)
followed by the 250 letter-digit pairs `a0..z9` (letters `'a'..='z'`
without `'l'`), 274 labels in all; each target address appears exactly
once in the processing order, a slot that already has a label keeps it
(`get_or_set_label` returns the existing label and draws nothing), an
unlabelled target receives exactly the next label of the sequence, and
labels present before `assign` survive it unchanged. -/
theorem c9_label_sequence_and_reuse :
    (unique.length = 274 ∧
     unique.take 26 =
       [.fixed "a", .fixed "b", .fixed "c", .fixed "d", .fixed "e",
        .fixed "f", .fixed "g", .fixed "h", .fixed "i", .fixed "j",
        .fixed "k", .fixed "m", .fixed "n", .fixed "o", .fixed "p",
        .fixed "q", .fixed "r", .fixed "s", .fixed "t", .fixed "u",
        .fixed "v", .fixed "w", .fixed "x", .fixed "y", .fixed "a0",
        .fixed "a1"]) ∧
    (∀ p : Program, (targets p).Nodup) ∧
    (∀ (p : Program) (addr : Nat) (labs : List Label) (slot : Slot)
       (l : Label), p.slots[addr]? = some slot → slot.label = some l →
       get_or_set_label p addr labs = some (l, p, labs)) ∧
    (∀ (p : Program) (addr : Nat) (l : Label) (rest : List Label)
       (slot : Slot), p.slots[addr]? = some slot → slot.label = none →
       get_or_set_label p addr (l :: rest) =
         some (l, ⟨listModify (fun s => { s with label := some l }) addr
           p.slots⟩, rest)) ∧
    (∀ (p q : Program) (labs : List Label), assign p labs = some q →
       ∀ j l, slotLabel p j = some l → slotLabel q j = some l) := by
  refine ⟨⟨by decide, by decide⟩, targets_nodup, ?_, ?_, assign_label_mono⟩
  · intro p addr labs slot l hs hl
    unfold get_or_set_label
    simp only [hs, hl]
  · intro p addr l rest slot hs hl
    unfold get_or_set_label
    simp only [hs, hl]

/-- Concrete instantiation of `c9_label_sequence_and_reuse`: the sequence
facts, a one-slot program whose existing label `a` is reused untouched, a
fresh draw of `b` onto an unlabelled slot, and a label surviving an
`assign` run. -/
theorem c9_label_sequence_and_reuse_witness :
    Dis.unique.length = 274 ∧
    (Dis.targets (Dis.Program.new [1, 2])).Nodup ∧
    Dis.get_or_set_label ⟨[{ raw := 0, label := some (.fixed "a") }]⟩ 0 [] =
      some (.fixed "a", ⟨[{ raw := 0, label := some (.fixed "a") }]⟩, []) ∧
    Dis.get_or_set_label ⟨[{ raw := 0 }]⟩ 0 [.fixed "b"] =
      some (.fixed "b",
        ⟨Dis.listModify (fun s => { s with label := some (.fixed "b") }) 0
          [{ raw := 0 }]⟩, []) ∧
    Dis.slotLabel ⟨[{ raw := 0, label := some (.fixed "c") }]⟩ 0 =
      some (.fixed "c") :=
  ⟨c9_label_sequence_and_reuse.1.1,
   c9_label_sequence_and_reuse.2.1 (Dis.Program.new [1, 2]),
   c9_label_sequence_and_reuse.2.2.1 _ 0 []
     { raw := 0, label := some (.fixed "a") } (.fixed "a") rfl rfl,
   c9_label_sequence_and_reuse.2.2.2.1 _ 0 (.fixed "b") [] { raw := 0 }
     rfl rfl,
   c9_label_sequence_and_reuse.2.2.2.2
     ⟨[{ raw := 0, label := some (.fixed "c") }]⟩
     ⟨[{ raw := 0, label := some (.fixed "c") }]⟩ [] (by decide) 0
     (.fixed "c") rfl⟩

/-- Counterexample to claim C9 as stated: the twenty-fifth fresh label
(index 24) is `a0`, not `z`, and the single-letter label `z` never occurs
in the sequence at all (`'a'..'z'` in Rust excludes its upper bound). -/
theorem c9_counterexample :
    Dis.unique.getD 24 (Dis.Label.fixed "") = Dis.Label.fixed "a0" ∧
    Dis.Label.fixed "z" ∉ Dis.unique := by
  exact ⟨by decide, by decide⟩

end ClaimsDisLabels

namespace Dis

theorem slotMark_modify_pres (p : Program) (f : Slot → Slot)
    (hf : ∀ s, (f s).mark = s.mark) (i j : Nat) :
    slotMark (⟨listModify f i p.slots⟩ : Program) j = slotMark p j := by
  unfold slotMark
  by_cases he : i = j
  · subst he
    show ((listModify f i p.slots)[i]?).bind _ = _
    rw [listModify_get_self]
    cases p.slots[i]? with
    | none => rfl
    | some s => simp [hf s]
  · show ((listModify f i p.slots)[j]?).bind _ = _
    rw [listModify_get_ne _ _ _ _ he]

theorem slotOpcode_modify_pres (p : Program) (f : Slot → Slot)
    (hf : ∀ s, (f s).mark = s.mark) (i j : Nat) :
    slotOpcode (⟨listModify f i p.slots⟩ : Program) j = slotOpcode p j := by
  unfold slotOpcode
  rw [slotMark_modify_pres p f hf i j]

theorem get_or_set_label_mark_pres (p : Program) (addr : Nat)
    (labs : List Label) (l1 : Label) (q : Program) (labs' : List Label)
    (h : get_or_set_label p addr labs = some (l1, q, labs')) (j : Nat) :
    slotMark q j = slotMark p j ∧ slotOpcode q j = slotOpcode p j := by
  unfold get_or_set_label at h
  split at h
  · cases h
  · split at h
    · cases h
      exact ⟨rfl, rfl⟩
    · split at h
      · cases h
      · cases h
        constructor
        · apply slotMark_modify_pres
          intro s
          rfl
        · apply slotOpcode_modify_pres
          intro s
          rfl

theorem set_label_type_fn_mark_pres (p : Program) (addr : Nat)
    (idx : List (LabelType × Nat)) (j : Nat) :
    slotMark (set_label_type_fn p addr idx) j = slotMark p j ∧
    slotOpcode (set_label_type_fn p addr idx) j = slotOpcode p j := by
  unfold set_label_type_fn
  split
  · split
    · exact ⟨rfl, rfl⟩
    · split
      · exact ⟨rfl, rfl⟩
      · constructor
        · apply slotMark_modify_pres
          intro s
          rfl
        · apply slotOpcode_modify_pres
          intro s
          rfl
  · exact ⟨rfl, rfl⟩

theorem label_param_mark_pres (p : Program) (i : Nat) (l : Label)
    (off : Int) (q : Program) (h : label_param p i l off = some q) :
    (∀ j, j ≠ i → slotMark q j = slotMark p j) ∧
    (∀ j, slotOpcode q j = slotOpcode p j) := by
  unfold label_param at h
  split at h
  · cases h
  · rename_i slot hs
    split at h
    · rename_i mode v hmk
      cases h
      constructor
      · intro j hj
        unfold slotMark
        show ((listModify _ i p.slots)[j]?).bind _ = _
        rw [listModify_get_ne _ _ _ _ (fun he => hj he.symm)]
      · intro j
        by_cases he : i = j
        · subst he
          unfold slotOpcode slotMark
          show (match ((listModify _ i p.slots)[i]?).bind _ with
            | some (Mark.opcode o) => some o
            | _ => none) = _
          rw [listModify_get_self, hs]
          simp only [Option.map_some', Option.some_bind, hmk]
        · unfold slotOpcode slotMark
          show (match ((listModify _ i p.slots)[j]?).bind _ with
            | some (Mark.opcode o) => some o
            | _ => none) = _
          rw [listModify_get_ne _ _ _ _ he]
    · cases h

theorem labelParamsList_mark_pres :
    ∀ (idx : List (LabelType × Nat)) (p q : Program) (l : Label) (off : Int),
      labelParamsList p idx l off = some q →
      (∀ j, j ∉ idx.map (·.2) → slotMark q j = slotMark p j) ∧
      (∀ j, slotOpcode q j = slotOpcode p j) := by
  intro idx
  induction idx with
  | nil =>
    intro p q l off h
    cases h
    exact ⟨fun _ _ => rfl, fun _ => rfl⟩
  | cons ti rest ih =>
    intro p q l off h
    obtain ⟨ty, i⟩ := ti
    simp only [labelParamsList] at h
    cases hlp : label_param p i l off with
    | none => rw [hlp] at h; cases h
    | some p1 =>
      rw [hlp] at h
      obtain ⟨ih1, ih2⟩ := ih p1 q l off h
      obtain ⟨h1, h2⟩ := label_param_mark_pres p i l off p1 hlp
      constructor
      · intro j hj
        simp only [List.map_cons, List.mem_cons] at hj
        push_neg at hj
        rw [ih1 j (by simpa using hj.2), h1 j hj.1]
      · intro j
        rw [ih2 j, h2 j]

end Dis

namespace Dis

theorem slotOpcode_some_iff (p : Program) (a : Nat) (o : Opcode) :
    slotOpcode p a = some o ↔ slotMark p a = some (.opcode o) := by
  unfold slotOpcode
  cases hm : slotMark p a with
  | none => simp
  | some mk => cases mk <;> simp

theorem instrAux_succ (p : Program) (a : Nat) :
    instrAux p (a + 1) =
      match slotMark p a with
      | some (.opcode o) => some (a, o)
      | _ => instrAux p a := rfl

theorem instrAux_congr (p q : Program)
    (h : ∀ j, slotOpcode q j = slotOpcode p j) :
    ∀ n, instrAux q n = instrAux p n := by
  intro n
  induction n with
  | zero => rfl
  | succ a ih =>
    rw [instrAux_succ, instrAux_succ]
    cases hq : slotMark q a with
    | some mk =>
      cases mk with
      | opcode o =>
        have hqo : slotOpcode q a = some o := (slotOpcode_some_iff q a o).2 hq
        have hpo : slotMark p a = some (.opcode o) :=
          (slotOpcode_some_iff p a o).1 (by rw [← h a]; exact hqo)
        rw [hpo]
      | param pp =>
        have hqo : slotOpcode q a = none := by unfold slotOpcode; rw [hq]
        have hpo : slotOpcode p a = none := by rw [← h a]; exact hqo
        cases hp : slotMark p a with
        | none => exact ih
        | some mk2 =>
          cases mk2 with
          | opcode o2 =>
            rw [(slotOpcode_some_iff p a o2).2 hp] at hpo
            cases hpo
          | param pp2 => exact ih
          | string => exact ih
          | data => exact ih
      | string =>
        have hqo : slotOpcode q a = none := by unfold slotOpcode; rw [hq]
        have hpo : slotOpcode p a = none := by rw [← h a]; exact hqo
        cases hp : slotMark p a with
        | none => exact ih
        | some mk2 =>
          cases mk2 with
          | opcode o2 =>
            rw [(slotOpcode_some_iff p a o2).2 hp] at hpo
            cases hpo
          | param pp2 => exact ih
          | string => exact ih
          | data => exact ih
      | data =>
        have hqo : slotOpcode q a = none := by unfold slotOpcode; rw [hq]
        have hpo : slotOpcode p a = none := by rw [← h a]; exact hqo
        cases hp : slotMark p a with
        | none => exact ih
        | some mk2 =>
          cases mk2 with
          | opcode o2 =>
            rw [(slotOpcode_some_iff p a o2).2 hp] at hpo
            cases hpo
          | param pp2 => exact ih
          | string => exact ih
          | data => exact ih
    | none =>
      have hqo : slotOpcode q a = none := by unfold slotOpcode; rw [hq]
      have hpo : slotOpcode p a = none := by rw [← h a]; exact hqo
      cases hp : slotMark p a with
      | none => exact ih
      | some mk2 =>
        cases mk2 with
        | opcode o2 =>
          rw [(slotOpcode_some_iff p a o2).2 hp] at hpo
          cases hpo
        | param pp2 => exact ih
        | string => exact ih
        | data => exact ih

theorem instr_addr_congr (p q : Program)
    (h : ∀ j, slotOpcode q j = slotOpcode p j) (n : Nat) :
    instr_addr q n = instr_addr p n := by
  unfold instr_addr
  rw [instrAux_congr p q h n]

theorem get_labeled_addr_none_def (p : Program) (i : Nat)
    (hs : p.slots[i]? = none) : get_labeled_addr p i = none := by
  unfold get_labeled_addr
  rw [hs]

theorem get_labeled_addr_some_def (p : Program) (i : Nat) (slot : Slot)
    (hs : p.slots[i]? = some slot) :
    get_labeled_addr p i =
      match slot.mark with
      | some (.param (.number .positional _)) =>
        (if 0 < rawToUsize slot.raw ∧ rawToUsize slot.raw < p.len then
          some (rawToUsize slot.raw) else none).map
          (fun a => (LabelType.data, a))
      | some (.param (.number .immediate _)) =>
        (match instrAux p i with
         | none => none
         | some (op_i, op) =>
           if (op = .jumpNonZero ∨ op = .jumpZero) ∧ i - op_i = 2 then
             (if 0 < rawToUsize slot.raw ∧ rawToUsize slot.raw < p.len then
               some (rawToUsize slot.raw) else none).map
               (fun a => (LabelType.instr, a))
           else none)
      | _ => none := by
  unfold get_labeled_addr
  rw [hs]

theorem get_labeled_addr_range (p : Program) (i : Nat) (ty : LabelType)
    (a : Nat) (h : get_labeled_addr p i = some (ty, a)) :
    0 < a ∧ a < p.len := by
  cases hs : p.slots[i]? with
  | none => rw [get_labeled_addr_none_def p i hs] at h; cases h
  | some slot =>
    rw [get_labeled_addr_some_def p i slot hs] at h
    split at h
    · split at h
      · rename_i hcond
        simp only [Option.map_some', Option.some.injEq, Prod.mk.injEq] at h
        rw [← h.2]
        exact hcond
      · cases h
    · split at h
      · cases h
      · split at h
        · split at h
          · rename_i hcond
            simp only [Option.map_some', Option.some.injEq,
              Prod.mk.injEq] at h
            rw [← h.2]
            exact hcond
          · cases h
        · cases h
    · cases h

theorem get_labeled_addr_out_of_range (p : Program) (i : Nat) (slot : Slot)
    (hs : p.slots[i]? = some slot)
    (hlo : -(2 ^ 63) ≤ slot.raw) (hhi : slot.raw < 2 ^ 63)
    (hlen : (p.len : Int) ≤ 2 ^ 63)
    (hout : slot.raw ≤ 0 ∨ (p.len : Int) ≤ slot.raw) :
    get_labeled_addr p i = none := by
  have hcond : ¬ (0 < rawToUsize slot.raw ∧ rawToUsize slot.raw < p.len) := by
    unfold rawToUsize
    omega
  rw [get_labeled_addr_some_def p i slot hs]
  simp only [if_neg hcond, Option.map_none', ite_self]
  split
  · rfl
  · split <;> rfl
  · rfl

end Dis

namespace Dis

theorem get_or_set_label_label_ne (p : Program) (addr : Nat)
    (labs : List Label) (l1 : Label) (q : Program) (labs' : List Label)
    (h : get_or_set_label p addr labs = some (l1, q, labs')) (j : Nat)
    (hj : j ≠ addr) : slotLabel q j = slotLabel p j := by
  unfold get_or_set_label at h
  split at h
  · cases h
  · split at h
    · cases h
      rfl
    · split at h
      · cases h
      · cases h
        unfold slotLabel
        show ((listModify _ addr p.slots)[j]?).bind _ = _
        rw [listModify_get_ne _ _ _ _ (fun he => hj he.symm)]

theorem gos_sltf_lpl_eff (p : Program) (caddr : Nat) (labs : List Label)
    (lg : Label) (pg : Program) (labsg : List Label)
    (taddr : Nat) (idx : List (LabelType × Nat)) (l : Label) (off : Int)
    (p2 : Program)
    (hg : get_or_set_label p caddr labs = some (lg, pg, labsg))
    (hll : labelParamsList (set_label_type_fn pg taddr idx) idx l off
      = some p2) :
    (∀ j, slotOpcode p2 j = slotOpcode p j) ∧
    (∀ j, j ∉ idx.map (·.2) → slotMark p2 j = slotMark p j) ∧
    (∀ j, j ≠ caddr → slotLabel p2 j = slotLabel p j) := by
  obtain ⟨hA, hB⟩ := labelParamsList_mark_pres idx _ p2 l off hll
  refine ⟨?_, ?_, ?_⟩
  · intro j
    rw [hB j, (set_label_type_fn_mark_pres pg taddr idx j).2,
      (get_or_set_label_mark_pres p caddr labs lg pg labsg hg j).2]
  · intro j hj
    rw [hA j hj, (set_label_type_fn_mark_pres pg taddr idx j).1,
      (get_or_set_label_mark_pres p caddr labs lg pg labsg hg j).1]
  · intro j hj
    rw [labelParamsList_label_pres idx _ p2 l off hll j,
      set_label_type_fn_label_pres pg taddr idx j,
      get_or_set_label_label_ne p caddr labs lg pg labsg hg j hj]

theorem sltf_lpl_eff (p : Program) (taddr : Nat)
    (idx : List (LabelType × Nat)) (l : Label) (off : Int) (p2 : Program)
    (hll : labelParamsList (set_label_type_fn p taddr idx) idx l off
      = some p2) :
    (∀ j, slotOpcode p2 j = slotOpcode p j) ∧
    (∀ j, j ∉ idx.map (·.2) → slotMark p2 j = slotMark p j) ∧
    (∀ j, slotLabel p2 j = slotLabel p j) := by
  obtain ⟨hA, hB⟩ := labelParamsList_mark_pres idx _ p2 l off hll
  refine ⟨?_, ?_, ?_⟩
  · intro j
    rw [hB j, (set_label_type_fn_mark_pres p taddr idx j).2]
  · intro j hj
    rw [hA j hj, (set_label_type_fn_mark_pres p taddr idx j).1]
  · intro j
    rw [labelParamsList_label_pres idx _ p2 l off hll j,
      set_label_type_fn_label_pres p taddr idx j]

theorem procTarget_eff (p : Program) (labs : List Label)
    (e : Nat × List (LabelType × Nat)) (q : Program) (labs' : List Label)
    (h : procTarget (some (p, labs)) e = some (q, labs')) :
    (∀ j, slotOpcode q j = slotOpcode p j) ∧
    (∀ j, j ∉ e.2.map (·.2) → slotMark q j = slotMark p j) ∧
    (∀ j, slotLabel q j ≠ slotLabel p j →
      j = e.1 ∨ instr_addr p e.1 = some j) := by
  simp only [procTarget, Option.some_bind, Option.bind_eq_bind] at h
  cases hm : (p.slots[e.1]?).bind (fun s => s.mark) with
  | none =>
    rw [hm] at h
    cases hg : get_or_set_label p e.1 labs with
    | none => rw [hg] at h; cases h
    | some r =>
      rw [hg] at h
      simp only [Option.some_bind] at h
      obtain ⟨lg, pg, labsg⟩ := r
      cases hll : labelParamsList (set_label_type_fn pg e.1 e.2) e.2 lg 0 with
      | none => rw [hll] at h; cases h
      | some p2 =>
        rw [hll] at h
        simp only [Option.some_bind, Option.pure_def, Option.some.injEq,
          Prod.mk.injEq] at h
        obtain ⟨hO, hM, hL⟩ :=
          gos_sltf_lpl_eff p e.1 labs lg pg labsg e.1 e.2 lg 0 p2 hg hll
        rw [← h.1]
        refine ⟨hO, hM, ?_⟩
        intro j hj
        by_cases he : j = e.1
        · exact Or.inl he
        · exact absurd (hL j he) hj
  | some mk =>
    rw [hm] at h
    cases mk with
    | string => cases h
    | data =>
      cases hg : get_or_set_label p e.1 labs with
      | none => rw [hg] at h; cases h
      | some r =>
        rw [hg] at h
        simp only [Option.some_bind] at h
        obtain ⟨lg, pg, labsg⟩ := r
        cases hll : labelParamsList (set_label_type_fn pg e.1 e.2) e.2 lg 0
          with
        | none => rw [hll] at h; cases h
        | some p2 =>
          rw [hll] at h
          simp only [Option.some_bind, Option.pure_def, Option.some.injEq,
            Prod.mk.injEq] at h
          obtain ⟨hO, hM, hL⟩ :=
            gos_sltf_lpl_eff p e.1 labs lg pg labsg e.1 e.2 lg 0 p2 hg hll
          rw [← h.1]
          refine ⟨hO, hM, ?_⟩
          intro j hj
          by_cases he : j = e.1
          · exact Or.inl he
          · exact absurd (hL j he) hj
    | opcode o =>
      cases hg : get_or_set_label p e.1 labs with
      | none => rw [hg] at h; cases h
      | some r =>
        rw [hg] at h
        simp only [Option.some_bind] at h
        obtain ⟨lg, pg, labsg⟩ := r
        cases hll : labelParamsList (set_label_type_fn pg e.1 e.2) e.2 lg 0
          with
        | none => rw [hll] at h; cases h
        | some p2 =>
          rw [hll] at h
          simp only [Option.some_bind, Option.pure_def, Option.some.injEq,
            Prod.mk.injEq] at h
          obtain ⟨hO, hM, hL⟩ :=
            gos_sltf_lpl_eff p e.1 labs lg pg labsg e.1 e.2 lg 0 p2 hg hll
          rw [← h.1]
          refine ⟨hO, hM, ?_⟩
          intro j hj
          by_cases he : j = e.1
          · exact Or.inl he
          · exact absurd (hL j he) hj
    | param pp =>
      cases hia : instr_addr p e.1 with
      | none => rw [hia] at h; cases h
      | some this_op =>
        rw [hia] at h
        simp only [Option.some_bind] at h
        by_cases hc : e.2.all
            (fun ti => decide (instr_addr p ti.2 = instr_addr p this_op))
        · rw [if_pos hc] at h
          cases hll : labelParamsList (set_label_type_fn p e.1 e.2) e.2
              Label.instructionPointer ((e.1 - this_op : Nat) : Int) with
          | none => rw [hll] at h; cases h
          | some p2 =>
            rw [hll] at h
            simp only [Option.some_bind, Option.pure_def, Option.some.injEq,
              Prod.mk.injEq] at h
            obtain ⟨hO, hM, hL⟩ := sltf_lpl_eff p e.1 e.2
              Label.instructionPointer ((e.1 - this_op : Nat) : Int) p2 hll
            rw [← h.1]
            exact ⟨hO, hM, fun j hj => absurd (hL j) hj⟩
        · rw [if_neg hc] at h
          cases hg : get_or_set_label p this_op labs with
          | none => rw [hg] at h; cases h
          | some r =>
            rw [hg] at h
            simp only [Option.some_bind] at h
            obtain ⟨lg, pg, labsg⟩ := r
            cases hll : labelParamsList (set_label_type_fn pg e.1 e.2) e.2 lg
                ((e.1 - this_op : Nat) : Int) with
            | none => rw [hll] at h; cases h
            | some p2 =>
              rw [hll] at h
              simp only [Option.some_bind, Option.pure_def, Option.some.injEq,
                Prod.mk.injEq] at h
              obtain ⟨hO, hM, hL⟩ := gos_sltf_lpl_eff p this_op labs lg pg
                labsg e.1 e.2 lg ((e.1 - this_op : Nat) : Int) p2 hg hll
              rw [← h.1]
              refine ⟨hO, hM, ?_⟩
              intro j hj
              by_cases he : j = this_op
              · rw [he]
                exact Or.inr rfl
              · exact absurd (hL j he) hj

end Dis

namespace Dis

theorem assign_fold_eff :
    ∀ (es : List (Nat × List (LabelType × Nat))) (p : Program)
      (labs : List Label) (q : Program) (labs' : List Label),
      es.foldl procTarget (some (p, labs)) = some (q, labs') →
      (∀ j, slotOpcode q j = slotOpcode p j) ∧
      (∀ j, (∀ e ∈ es, j ∉ e.2.map (·.2)) → slotMark q j = slotMark p j) ∧
      (∀ j, slotLabel q j ≠ slotLabel p j →
        ∃ e ∈ es, j = e.1 ∨ instr_addr p e.1 = some j) := by
  intro es
  induction es with
  | nil =>
    intro p labs q labs' h
    cases h
    exact ⟨fun _ => rfl, fun _ _ => rfl, fun j hj => absurd rfl hj⟩
  | cons e rest ih =>
    intro p labs q labs' h
    rw [List.foldl_cons] at h
    cases hstep : procTarget (some (p, labs)) e with
    | none => rw [hstep, procTarget_fold_none] at h; cases h
    | some pl1 =>
      rw [hstep] at h
      obtain ⟨p1, labs1⟩ := pl1
      obtain ⟨ihO, ihM, ihL⟩ := ih p1 labs1 q labs' h
      obtain ⟨sO, sM, sL⟩ := procTarget_eff p labs e p1 labs1 hstep
      refine ⟨?_, ?_, ?_⟩
      · intro j
        rw [ihO j, sO j]
      · intro j hj
        rw [ihM j (fun e2 he2 => hj e2 (List.mem_cons_of_mem e he2)),
          sM j (hj e (List.mem_cons_self e rest))]
      · intro j hj
        by_cases hmid : slotLabel p1 j = slotLabel p j
        · have hne1 : slotLabel q j ≠ slotLabel p1 j := by
            rw [hmid]
            exact hj
          obtain ⟨e2, he2, hcase⟩ := ihL j hne1
          refine ⟨e2, List.mem_cons_of_mem e he2, ?_⟩
          cases hcase with
          | inl hl => exact Or.inl hl
          | inr hr =>
            right
            rw [← instr_addr_congr p p1 sO e2.1]
            exact hr
        · exact ⟨e, List.mem_cons_self e rest, sL j hmid⟩

theorem refsPairs_mem (p : Program) (x : Nat × LabelType × Nat)
    (hx : x ∈ refsPairs p) :
    get_labeled_addr p x.1 = some (x.2.1, x.2.2) := by
  unfold refsPairs at hx
  rw [List.mem_filterMap] at hx
  obtain ⟨i, _, hfi⟩ := hx
  cases hg : get_labeled_addr p i with
  | none => rw [hg] at hfi; cases hfi
  | some ta =>
    rw [hg] at hfi
    simp only [Option.map_some', Option.some.injEq] at hfi
    rw [← hfi]
    exact hg

theorem targets_mem_range (p : Program) (a : Nat) (ha : a ∈ targets p) :
    0 < a ∧ a < p.len := by
  unfold targets at ha
  have h2 := (List.mem_filter.1 ha).2
  rw [List.any_eq_true] at h2
  obtain ⟨x, hx, hxa⟩ := h2
  rw [decide_eq_true_eq] at hxa
  have hr := get_labeled_addr_range p x.1 x.2.1 x.2.2 (refsPairs_mem p x hx)
  rw [hxa] at hr
  exact hr

theorem groupFor_mem (p : Program) (a : Nat) (ti : LabelType × Nat)
    (hti : ti ∈ groupFor p a) :
    get_labeled_addr p ti.2 = some (ti.1, a) := by
  unfold groupFor at hti
  rw [List.mem_filterMap] at hti
  obtain ⟨x, hx, hfx⟩ := hti
  by_cases he : x.2.2 = a
  · rw [if_pos he] at hfx
    cases hfx
    have hr := refsPairs_mem p x hx
    rw [he] at hr
    exact hr
  · rw [if_neg he] at hfx
    cases hfx

theorem assign_marks_unchanged (p q : Program) (labs : List Label)
    (h : assign p labs = some q) (i : Nat)
    (hi : get_labeled_addr p i = none) : slotMark q i = slotMark p i := by
  rw [assign_def] at h
  cases hf : ((targets p).map (fun a => (a, groupFor p a))).foldl procTarget
      (some (p, labs)) with
  | none => rw [hf] at h; cases h
  | some pl =>
    rw [hf] at h
    simp only [Option.map_some', Option.some.injEq] at h
    obtain ⟨p1, labs1⟩ := pl
    rw [← h]
    refine (assign_fold_eff _ p labs p1 labs1 hf).2.1 i ?_
    intro e he hmem
    rw [List.mem_map] at he
    obtain ⟨a, ha, hea⟩ := he
    rw [← hea] at hmem
    simp only [List.mem_map] at hmem
    obtain ⟨ti, hti, htieq⟩ := hmem
    have hgl := groupFor_mem p a ti hti
    rw [htieq, hi] at hgl
    cases hgl

theorem assign_labels_at_targets (p q : Program) (labs : List Label)
    (h : assign p labs = some q) (j : Nat)
    (hj : slotLabel q j ≠ slotLabel p j) :
    ∃ a, 0 < a ∧ a < p.len ∧ (j = a ∨ instr_addr p a = some j) := by
  rw [assign_def] at h
  cases hf : ((targets p).map (fun a => (a, groupFor p a))).foldl procTarget
      (some (p, labs)) with
  | none => rw [hf] at h; cases h
  | some pl =>
    rw [hf] at h
    simp only [Option.map_some', Option.some.injEq] at h
    obtain ⟨p1, labs1⟩ := pl
    rw [← h] at hj
    obtain ⟨e, he, hcase⟩ := (assign_fold_eff _ p labs p1 labs1 hf).2.2 j hj
    rw [List.mem_map] at he
    obtain ⟨a, ha, hea⟩ := he
    have hr := targets_mem_range p a ha
    refine ⟨a, hr.1, hr.2, ?_⟩
    rw [← hea] at hcase
    exact hcase

end Dis

section ClaimsDisTargets
open Dis

/-- C10 (amended): `get_labeled_addr` indeed only yields target addresses
`a` with `0 < a < len` — a parameter whose raw value reinterpreted as
`usize` falls outside that interval (0, negative, or at least the image
length, under the `i64` value range and an image shorter than `2^63`)
yields no reference, and a slot that yields no reference keeps its mark
(it is never rewritten into a label) through `assign`; but a label can
land outside the targets: it is written either at a target address or at
the enclosing-opcode address of a parameter-marked target, and the latter
may be any address, including 0. -/
theorem c10_label_targets_in_range :
    (∀ (p : Program) (i : Nat) (ty : LabelType) (a : Nat),
      get_labeled_addr p i = some (ty, a) → 0 < a ∧ a < p.len) ∧
    (∀ (p : Program) (i : Nat) (slot : Slot), p.slots[i]? = some slot →
      -(2 ^ 63) ≤ slot.raw → slot.raw < 2 ^ 63 → (p.len : Int) ≤ 2 ^ 63 →
      (slot.raw ≤ 0 ∨ (p.len : Int) ≤ slot.raw) →
      get_labeled_addr p i = none) ∧
    (∀ (p q : Program) (labs : List Label), assign p labs = some q →
      ∀ i, get_labeled_addr p i = none → slotMark q i = slotMark p i) ∧
    (∀ (p q : Program) (labs : List Label), assign p labs = some q →
      ∀ j, slotLabel q j ≠ slotLabel p j →
        ∃ a, 0 < a ∧ a < p.len ∧ (j = a ∨ instr_addr p a = some j)) := by
  refine ⟨get_labeled_addr_range, ?_, assign_marks_unchanged,
    assign_labels_at_targets⟩
  intro p i slot hs hlo hhi hlen hout
  exact get_labeled_addr_out_of_range p i slot hs hlo hhi hlen hout

/-- Concrete instantiation of `c10_label_targets_in_range` on the
four-slot image `[1, 0, 0, 0+1]` marked as `ADD 0 0 -> 1`: the reference
from slot 3 targets address 1 which lies in `(0, 4)`; slot 1 (raw 0)
yields no reference; the opcode slot 0 yields no reference and its mark
survives `assign`; and the one label that `assign` writes is accounted
for by the target 1 (it lands at the enclosing opcode of target 1,
address 0). -/
theorem c10_label_targets_in_range_witness :
    (0 < 1 ∧ 1 <
      (Dis.Program.mk [
        { raw := 1, mark := some (.opcode .add) },
        { raw := 0, mark := some (.param (.number .positional 0)) },
        { raw := 0, mark := some (.param (.number .positional 0)) },
        { raw := 1, mark := some (.param (.number .positional 1)) }]).len) ∧
    Dis.get_labeled_addr
      ⟨[{ raw := 1, mark := some (.opcode .add) },
        { raw := 0, mark := some (.param (.number .positional 0)) },
        { raw := 0, mark := some (.param (.number .positional 0)) },
        { raw := 1, mark := some (.param (.number .positional 1)) }]⟩ 1
      = none ∧
    Dis.slotMark
      ⟨[{ raw := 1, mark := some (.opcode .add),
          label := some (.fixed "a") },
        { raw := 0, mark := some (.param (.number .positional 0)),
          label_type := some .data },
        { raw := 0, mark := some (.param (.number .positional 0)) },
        { raw := 1,
          mark := some (.param (.label .positional (.fixed "a") 1)) }]⟩ 0 =
      Dis.slotMark
        ⟨[{ raw := 1, mark := some (.opcode .add) },
          { raw := 0, mark := some (.param (.number .positional 0)) },
          { raw := 0, mark := some (.param (.number .positional 0)) },
          { raw := 1, mark := some (.param (.number .positional 1)) }]⟩ 0 ∧
    ∃ a, 0 < a ∧
      a < (Dis.Program.mk [
        { raw := 1, mark := some (.opcode .add) },
        { raw := 0, mark := some (.param (.number .positional 0)) },
        { raw := 0, mark := some (.param (.number .positional 0)) },
        { raw := 1, mark := some (.param (.number .positional 1)) }]).len ∧
      (0 = a ∨ Dis.instr_addr
        ⟨[{ raw := 1, mark := some (.opcode .add) },
          { raw := 0, mark := some (.param (.number .positional 0)) },
          { raw := 0, mark := some (.param (.number .positional 0)) },
          { raw := 1, mark := some (.param (.number .positional 1)) }]⟩ a
        = some 0) :=
  ⟨c10_label_targets_in_range.1
    ⟨[{ raw := 1, mark := some (.opcode .add) },
      { raw := 0, mark := some (.param (.number .positional 0)) },
      { raw := 0, mark := some (.param (.number .positional 0)) },
      { raw := 1, mark := some (.param (.number .positional 1)) }]⟩ 3
    .data 1 (by decide),
   c10_label_targets_in_range.2.1
    ⟨[{ raw := 1, mark := some (.opcode .add) },
      { raw := 0, mark := some (.param (.number .positional 0)) },
      { raw := 0, mark := some (.param (.number .positional 0)) },
      { raw := 1, mark := some (.param (.number .positional 1)) }]⟩ 1
    { raw := 0, mark := some (.param (.number .positional 0)) }
    (by decide) (by decide) (by decide) (by decide) (Or.inl (by decide)),
   c10_label_targets_in_range.2.2.1
    ⟨[{ raw := 1, mark := some (.opcode .add) },
      { raw := 0, mark := some (.param (.number .positional 0)) },
      { raw := 0, mark := some (.param (.number .positional 0)) },
      { raw := 1, mark := some (.param (.number .positional 1)) }]⟩
    ⟨[{ raw := 1, mark := some (.opcode .add),
        label := some (.fixed "a") },
      { raw := 0, mark := some (.param (.number .positional 0)),
        label_type := some .data },
      { raw := 0, mark := some (.param (.number .positional 0)) },
      { raw := 1,
        mark := some (.param (.label .positional (.fixed "a") 1)) }]⟩
    [.fixed "a"] (by decide) 0 (by decide),
   c10_label_targets_in_range.2.2.2
    ⟨[{ raw := 1, mark := some (.opcode .add) },
      { raw := 0, mark := some (.param (.number .positional 0)) },
      { raw := 0, mark := some (.param (.number .positional 0)) },
      { raw := 1, mark := some (.param (.number .positional 1)) }]⟩
    ⟨[{ raw := 1, mark := some (.opcode .add),
        label := some (.fixed "a") },
      { raw := 0, mark := some (.param (.number .positional 0)),
        label_type := some .data },
      { raw := 0, mark := some (.param (.number .positional 0)) },
      { raw := 1,
        mark := some (.param (.label .positional (.fixed "a") 1)) }]⟩
    [.fixed "a"] (by decide) 0 (by decide)⟩

/-- Counterexample to claim C10 as stated: on the image `[1, 0, 0, 1]`
marked as one ADD instruction whose third parameter (slot 3, raw 1)
references target address 1, `assign` places the fresh label `a` on slot
0 — the enclosing opcode of the parameter-marked target — so address 0
does receive a label even though every reference target is in range. -/
theorem c10_counterexample :
    Dis.assign
      ⟨[{ raw := 1, mark := some (.opcode .add) },
        { raw := 0, mark := some (.param (.number .positional 0)) },
        { raw := 0, mark := some (.param (.number .positional 0)) },
        { raw := 1, mark := some (.param (.number .positional 1)) }]⟩
      [Dis.Label.fixed "a"] =
      some ⟨[{ raw := 1, mark := some (.opcode .add),
               label := some (.fixed "a") },
             { raw := 0, mark := some (.param (.number .positional 0)),
               label_type := some .data },
             { raw := 0, mark := some (.param (.number .positional 0)) },
             { raw := 1,
               mark := some (.param (.label .positional (.fixed "a") 1)) }]⟩ ∧
    Dis.slotLabel
      ⟨[{ raw := 1, mark := some (.opcode .add),
          label := some (.fixed "a") },
        { raw := 0, mark := some (.param (.number .positional 0)),
          label_type := some .data },
        { raw := 0, mark := some (.param (.number .positional 0)) },
        { raw := 1,
          mark := some (.param (.label .positional (.fixed "a") 1)) }]⟩ 0 =
      some (Dis.Label.fixed "a") := by
  exact ⟨by decide, by decide⟩

end ClaimsDisTargets
